import Mathlib

/-!
# crabfs-cp: address parsing and the copy driver

A shallow embedding of `main.go`:

* `extractBucketAndFilename`, which applies the regular expression
  `crabfs:\/\/(\w+)\/(.*)` with `FindStringSubmatch`. The expression is kept
  as a syntax tree and run by a backtracking matcher with Go's leftmost-first
  preference, so that the parser is the source's call on the source's pattern.
* `main`, the copy driver, as a computation over a world (local files, the
  temporary file, the store) and the open-file table of the process, in an
  environment that fixes the outcome of every external call and the file each
  path names. A run yields the trace of external calls in the order they are
  made, the final world and the way the process ends.

Strings are lists of characters, as Go reads a valid UTF-8 string rune by
rune; the pattern tells characters apart only within ASCII. Definitions come
first, then lemmas and the theorems on the program.
-/

namespace CrabfsCp

/-! ## Regular expressions: the fragment of Go's `regexp` syntax the program uses -/

/-- Text, as a list of characters. -/
abbrev Str := List Char

/-- Submatch table of a match: entry `i` is the text of capture group `i`
(entry 0 is the whole match); a group that took no part is the empty text. -/
abbrev Groups := List Str

/-- Perl character class `\w` of Go's `regexp/syntax`: `[0-9A-Za-z_]`, ASCII only. -/
def isWordChar (c : Char) : Bool :=
  (48 ≤ c.toNat && c.toNat ≤ 57) || (65 ≤ c.toNat && c.toNat ≤ 90) ||
    (97 ≤ c.toNat && c.toNat ≤ 122) || c.toNat == 95

/-- Class of `.` without the `s` flag: any character except the line feed. -/
def isDotChar (c : Char) : Bool :=
  c.toNat != 10

/-- Regular expression syntax tree. -/
inductive Regex where
  | lit (c : Char)
  | cls (p : Char → Bool)
  | cat (r₁ r₂ : Regex)
  | star (r : Regex)
  | plus (r : Regex)
  | cap (i : Nat) (r : Regex)

/-- Greedy iteration of `step`: every way to apply `step` repeatedly, each
round consuming at least one character, most rounds first; `fuel` bounds the
number of rounds. -/
def iterate (step : Str → Groups → List (Str × Groups)) :
    Nat → Str → Groups → List (Str × Groups)
  | 0, s, g => [(s, g)]
  | fuel + 1, s, g =>
    (step s g).flatMap (fun r =>
      if r.1.length < s.length then iterate step fuel r.1 r.2 else []) ++ [(s, g)]

/-- Backtracking matcher: all the ways `r` matches a prefix of `s`, in the
order a backtracking search tries them (greedy operators prefer more
repetitions). Each result is the unconsumed rest of the input and the
submatch table. -/
def Regex.run : Regex → Str → Groups → List (Str × Groups)
  | .lit c => fun s g =>
    match s with
    | x :: xs => if x = c then [(xs, g)] else []
    | [] => []
  | .cls p => fun s g =>
    match s with
    | x :: xs => if p x then [(xs, g)] else []
    | [] => []
  | .cat r₁ r₂ => fun s g =>
    (r₁.run s g).flatMap (fun r => r₂.run r.1 r.2)
  | .star r => fun s g => iterate r.run s.length s g
  | .plus r => fun s g =>
    (r.run s g).flatMap (fun r₁ => iterate r.run r₁.1.length r₁.1 r₁.2)
  | .cap i r => fun s g =>
    (r.run s g).map (fun r₁ => (r₁.1, r₁.2.set i (s.take (s.length - r₁.1.length))))

/-- Concatenation of the literal characters of `cs`, followed by `r`. -/
def Regex.lits (cs : Str) (r : Regex) : Regex :=
  cs.foldr (fun c acc => .cat (.lit c) acc) r

/-- Number of the highest capture group of the expression. -/
def Regex.numCap : Regex → Nat
  | .lit _ => 0
  | .cls _ => 0
  | .cat r₁ r₂ => max r₁.numCap r₂.numCap
  | .star r => r.numCap
  | .plus r => r.numCap
  | .cap i r => max i r.numCap

/-- Preferred match of `r` at the very start of `s`, if any. -/
def Regex.matchHere (r : Regex) (s : Str) : Option Groups :=
  ((Regex.cap 0 r).run s (List.replicate (r.numCap + 1) [])).head?.map (fun m => m.2)

/-- `FindStringSubmatch`: the submatches of the leftmost match of `r` in `s`
(`none` is Go's `nil`). -/
def Regex.findStringSubmatch (r : Regex) : Str → Option Groups
  | [] => r.matchHere []
  | c :: cs =>
    match r.matchHere (c :: cs) with
    | some g => some g
    | none => r.findStringSubmatch cs

/-- The URI prefix. -/
def crabfsPrefix : Str := ['c', 'r', 'a', 'b', 'f', 's', ':', '/', '/']

/-- The compiled pattern `crabfs:\/\/(\w+)\/(.*)`. -/
def addressRegex : Regex :=
  .lits crabfsPrefix
    (.cat (.cap 1 (.plus (.cls isWordChar)))
      (.cat (.lit '/') (.cap 2 (.star (.cls isDotChar)))))

/-- Source: `extractBucketAndFilename`. -/
def extractBucketAndFilename (proto : Str) : Str × Str :=
  match addressRegex.findStringSubmatch proto with
  | none => ([], [])
  | some groups => (groups.getD 1 [], groups.getD 2 [])

/-! ## Direct reading of the address pattern, used to reason about the matcher -/

/-- Every rest left by consuming a run of `p`-characters of `s`, longest run first. -/
def splits (p : Char → Bool) : Str → List Str
  | [] => [[]]
  | x :: xs => if p x then splits p xs ++ [x :: xs] else [x :: xs]

/-- Direct reading of the address pattern at the start of `s`: the prefix, a
maximal non-empty run of word characters, a slash, then everything up to the
first line feed. -/
def parseHere (s : Str) : Option (Str × Str) :=
  if crabfsPrefix.isPrefixOf s then
    match (s.drop crabfsPrefix.length).dropWhile isWordChar with
    | [] => none
    | c :: t =>
      if c = '/' ∧ (s.drop crabfsPrefix.length).takeWhile isWordChar ≠ [] then
        some ((s.drop crabfsPrefix.length).takeWhile isWordChar, t.takeWhile isDotChar)
      else none
  else none

/-- Direct reading of the address pattern at the leftmost position of `s` where it applies. -/
def parseFirst : Str → Option (Str × Str)
  | [] => none
  | c :: cs =>
    match parseHere (c :: cs) with
    | some r => some r
    | none => parseFirst cs

/-- The part of the pattern after the prefix: `(\w+)\/(.*)`. -/
def addressBody : Regex :=
  .cat (.cap 1 (.plus (.cls isWordChar)))
    (.cat (.lit '/') (.cap 2 (.star (.cls isDotChar))))

/-- The part of the pattern after the bucket: `\/(.*)`. -/
def addressTail : Regex :=
  .cat (.lit '/') (.cap 2 (.star (.cls isDotChar)))

/-- The address pattern applies at offset `p.length` of `s`: there the text
`crabfs://` is followed by the non-empty run `b` of word characters and a slash. -/
def MatchAt (s p b t : Str) : Prop :=
  b ≠ [] ∧ (∀ c ∈ b, isWordChar c = true) ∧ s = p ++ crabfsPrefix ++ b ++ '/' :: t

/-- The input contains a match of the address pattern. -/
def HasMatch (s : Str) : Prop :=
  ∃ p b t, MatchAt s p b t

/-- Bucket segment of the text after the prefix: up to the next slash, or to the end. -/
def bucketSegment (rest : Str) : Str :=
  rest.takeWhile (fun c => decide (c ≠ '/'))

/-- The bucket segment is empty, holds a character outside `\w`, or no slash follows it. -/
def BadBucket (rest : Str) : Prop :=
  bucketSegment rest = [] ∨ (∃ c ∈ bucketSegment rest, isWordChar c = false) ∨ '/' ∉ rest

/-! ## The copy driver

Each external call is followed in the source by `if err != nil { panic(err) }`;
the primitives below make the call, record it in the trace and stop the run at
that call site when the call fails. Open files are handles with an offset of
their own, so that reading through a handle starts where that handle stands. -/

/-- File contents and streams. -/
abbrev Bytes := List UInt8

/-- Private key of the store library; the library's own data, kept abstract. -/
structure PrivKey where
  id : Nat
deriving DecidableEq

/-- Modelled from the spec: the publication index of the store, which is code
of the `crabfs` library and not part of `main.go`. A publication record is
keyed by owner key, bucket and file name and holds the content and the
timestamp of its publication. -/
abbrev Store := PrivKey → Str → Str → Option (Bytes × Nat)

/-- Modelled from the spec: the conflict rule of the publication index,
which is code of the `crabfs` library: a publication is accepted only when
its timestamp is later than the stored one (last write wins). -/
def Store.publish (st : Store) (k : PrivKey) (bucket filename : Str) (data : Bytes)
    (time : Nat) : Store :=
  match st k bucket filename with
  | some (_, old) =>
    if old < time then
      fun k' b' f' => if k' = k ∧ b' = bucket ∧ f' = filename then some (data, time)
        else st k' b' f'
    else st
  | none =>
    fun k' b' f' => if k' = k ∧ b' = bucket ∧ f' = filename then some (data, time)
      else st k' b' f'

/-- Everything the program reads and writes that outlives the process. -/
structure World where
  /-- Local files, each under the one name its paths resolve to. -/
  files : Str → Option Bytes
  /-- The file made by `ioutil.TempFile`, whose fresh name no argument can denote. -/
  temp : Option Bytes
  /-- The store reached through the library. -/
  store : Store

/-- Outcome of every external call, fixed ahead of the run. -/
structure Env where
  /-- The file a path names: two spellings of one file resolve alike. -/
  resolve : Str → Str
  /-- `crabfs.GenerateKeyPair()`; `none` is an error. -/
  generateKeyPair : Option PrivKey
  /-- `privkey.Marshal()`; `main` ignores its error. -/
  marshal : PrivKey → Bytes
  /-- `crabfs.ReadPrivateKey`; `none` is an error. -/
  readPrivateKey : Bytes → Option PrivKey
  /-- `os.Open` fails on this path even if the file exists. -/
  denyOpen : Str → Bool
  /-- `os.Create` fails on this path. -/
  denyCreate : Str → Bool
  /-- `ioutil.TempDir` fails. -/
  tempDirFails : Bool
  /-- `crabfs.New` fails. -/
  newFails : Bool
  /-- `fs.PublishPublicKey` fails. -/
  publishPublicKeyFails : Bool
  /-- `fs.Get` fails although the record exists. -/
  getFails : Bool
  /-- `ioutil.TempFile` fails. -/
  tempFileFails : Bool
  /-- `io.Copy` fails after having written this many bytes. -/
  copyFault : Option Nat
  /-- `os.Open(dst.Name())` fails. -/
  reopenFails : Bool
  /-- `fs.Put` fails. -/
  putFails : Bool
  /-- `time.Now()`. -/
  now : Nat

/-- Name a file is opened under, which `Name()` gives back: a path, or the
name of the temporary file. -/
inductive File where
  | named (path : Str)
  | temp
deriving DecidableEq

/-- Entry of the open-file table: the name the file was opened under and the
offset at which the next read or write takes place. -/
structure OpenFile where
  name : File
  offset : Nat

/-- The value `*os.File`: an index into the open-file table. -/
structure Handle where
  fd : Nat
deriving DecidableEq

/-- The `io.Reader` handed to `io.Copy`. -/
inductive Reader where
  | file (f : Handle)
  | fetcher (content : Bytes)

/-- External calls, as recorded in the trace in the order they are made. -/
inductive Event where
  | usage
  | generateKeyPair
  | createKey (path : Str)
  | writeKey (path : Str) (data : Bytes)
  | openKey (path : Str)
  | readPrivateKey
  | tempDir
  | newStore
  | publishPublicKey (k : PrivKey)
  | get (k : PrivKey) (bucket filename : Str)
  | openSource (path : Str)
  | tempFile
  | createDest (path : Str)
  | copy (dst : File) (src : Bytes) (written : Nat) (ok : Bool)
  | printCopied (n : Nat)
  | openTemp
  | put (k : PrivKey) (bucket filename : Str) (data : Bytes) (time : Nat)
  | printPushed
  | awaitSignal
deriving DecidableEq

/-- Why a run stops before `main` returns. -/
inductive Stop where
  | invalidArgs
  | generateKeyPair
  | createKey
  | openKey
  | readPrivateKey
  | tempDir
  | newStore
  | publishPublicKey
  | get
  | openSource
  | tempFile
  | createDest
  | copy
  | openTemp
  | put
  | exit
deriving DecidableEq

/-- State threaded through a run: the world, the trace, and the open-file
table of the process with its next free index. -/
structure St where
  world : World
  trace : List Event
  handles : Nat → OpenFile
  next : Nat

/-- State in which a process starts on world `w`: no call made, no file open. -/
def St.init (w : World) : St :=
  ⟨w, [], fun _ => ⟨.temp, 0⟩, 0⟩

/-- Result of a computation: a value, or the stop of the process. -/
inductive Res (α : Type) where
  | ok (a : α) (s : St)
  | stop (why : Stop) (s : St)

/-- State in which a computation ends. -/
def Res.state {α : Type} : Res α → St
  | .ok _ s => s
  | .stop _ s => s

/-- Sequencing on results: continue after a value, keep a stop. -/
def Res.andThen {α β : Type} (r : Res α) (f : α → St → Res β) : Res β :=
  match r with
  | .ok a s => f a s
  | .stop why s => .stop why s

/-- Computations of the driver. -/
def M (α : Type) : Type := Env → St → Res α

instance : Monad M where
  pure a := fun _ s => .ok a s
  bind m f := fun env s => (m env s).andThen (fun a s' => f a env s')

/-- Record an external call. -/
def emit (e : Event) : M Unit := fun _ s => .ok () { s with trace := s.trace ++ [e] }

/-- Stop the run: `panic(err)`, `panic("Invalid args")` or `os.Exit(0)`. -/
def halt {α : Type} (why : Stop) : M α := fun _ s => .stop why s

/-- The environment of the run. -/
def getEnv : M Env := fun env s => .ok env s

/-- The current world. -/
def getWorld : M World := fun _ s => .ok s.world s

/-- Replace the world. -/
def setWorld (w : World) : M Unit := fun _ s => .ok () { s with world := w }

/-- Content of the file opened under `name`. -/
def World.content (w : World) (env : Env) : File → Bytes
  | .named path => (w.files (env.resolve path)).getD []
  | .temp => w.temp.getD []

/-- Replace the content of the file opened under `name`. -/
def World.setContent (w : World) (env : Env) (name : File) (data : Bytes) : World :=
  match name with
  | .named path =>
    { w with files := fun q => if q = env.resolve path then some data else w.files q }
  | .temp => { w with temp := some data }

/-- Content after writing `data` at `offset`: a gap past the end is filled
with zero bytes, bytes under the written range are replaced. -/
def writeAt (content : Bytes) (offset : Nat) (data : Bytes) : Bytes :=
  (content ++ List.replicate (offset - content.length) 0).take offset ++ data ++
    content.drop (offset + data.length)

/-- A new handle on the file `name`, placed at offset 0. -/
def openHandle (name : File) : M Handle := fun _ s =>
  .ok ⟨s.next⟩
    { s with
      handles := fun n => if n = s.next then ⟨name, 0⟩ else s.handles n
      next := s.next + 1 }

/-- Source: `f.Name()`. -/
def fileName (f : Handle) : M File := fun _ s => .ok (s.handles f.fd).name s

/-- Read through a handle from its offset to the end of the file; the offset
moves to the end. -/
def fileRead (f : Handle) : M Bytes := fun env s =>
  .ok ((s.world.content env (s.handles f.fd).name).drop (s.handles f.fd).offset)
    { s with
      handles := fun n =>
        if n = f.fd then
          ⟨(s.handles f.fd).name,
            max (s.handles f.fd).offset (s.world.content env (s.handles f.fd).name).length⟩
        else s.handles n }

/-- Write through a handle at its offset; the offset moves past the data. -/
def fileWrite (f : Handle) (data : Bytes) : M Unit := fun env s =>
  .ok ()
    { s with
      world := s.world.setContent env (s.handles f.fd).name
        (writeAt (s.world.content env (s.handles f.fd).name) (s.handles f.fd).offset data)
      handles := fun n =>
        if n = f.fd then ⟨(s.handles f.fd).name, (s.handles f.fd).offset + data.length⟩
        else s.handles n }

/-- Source: `usage`. -/
def usage : M Unit := emit .usage

/-- `crabfs.GenerateKeyPair()` with its error check. -/
def generateKeyPair : M PrivKey := do
  emit .generateKeyPair
  match (← getEnv).generateKeyPair with
  | some k => pure k
  | none => halt .generateKeyPair

/-- `os.Create(path)` with its error check: the file is made or truncated
and opened at offset 0. -/
def osCreate (ev : Event) (why : Stop) (path : Str) : M Handle := do
  emit ev
  let env ← getEnv
  if env.denyCreate path then halt why
  else
    setWorld ((← getWorld).setContent env (.named path) [])
    openHandle (.named path)

/-- `os.Open(path)` with its error check: the file is opened at offset 0. -/
def osOpen (ev : Event) (why : Stop) (path : Str) : M Handle := do
  emit ev
  let env ← getEnv
  if env.denyOpen path || ((← getWorld).files (env.resolve path)).isNone then halt why
  else openHandle (.named path)

/-- `privkeyFile.Write(data)` on the marshalled key; the result is ignored. -/
def writeKey (f : Handle) (path : Str) (k : PrivKey) : M Unit := do
  let data := (← getEnv).marshal k
  emit (.writeKey path data)
  fileWrite f data

/-- `crabfs.ReadPrivateKey(file)` with its error check; the library reads the
file through the handle. -/
def readPrivateKey (f : Handle) : M PrivKey := do
  emit .readPrivateKey
  match (← getEnv).readPrivateKey (← fileRead f) with
  | some k => pure k
  | none => halt .readPrivateKey

/-- `ioutil.TempDir("", "crabfs")` with its error check. -/
def tempDir : M Unit := do
  emit .tempDir
  if (← getEnv).tempDirFails then halt .tempDir else pure ()

/-- `crabfs.New(...)` with its error check. -/
def crabfsNew : M Unit := do
  emit .newStore
  if (← getEnv).newFails then halt .newStore else pure ()

/-- `fs.PublishPublicKey(privkey.GetPublic())` with its error check. -/
def publishPublicKey (k : PrivKey) : M Unit := do
  emit (.publishPublicKey k)
  if (← getEnv).publishPublicKeyFails then halt .publishPublicKey else pure ()

/-- Modelled from the spec: what `fs.Get(ctx, privkey, bucket, filename)`
returns is decided by the `crabfs` library, which is not part of `main.go`.
The call, with the error check of `main`: the lookup of the publication
record fails when there is none, and the returned reader yields the
published content. -/
def fsGet (k : PrivKey) (bucket filename : Str) : M Reader := do
  emit (.get k bucket filename)
  match (← getWorld).store k bucket filename with
  | some (data, _) => if (← getEnv).getFails then halt .get else pure (.fetcher data)
  | none => halt .get

/-- `ioutil.TempFile("", "crabfs_")` with its error check: the file is made
empty and opened at offset 0. -/
def tempFile : M Handle := do
  emit .tempFile
  if (← getEnv).tempFileFails then halt .tempFile
  else
    setWorld { (← getWorld) with temp := some [] }
    openHandle .temp

/-- What a reader yields when read to its end. -/
def Reader.readAll : Reader → M Bytes
  | .file f => fileRead f
  | .fetcher content => pure content

/-- `io.Copy(dst, src)` with its error check: the source is read to its end
and written through `dst`, or the call fails after a part of it. Returns the
number of bytes copied. -/
def ioCopy (dst : Handle) (src : Reader) : M Nat := do
  let stream ← src.readAll
  let name ← fileName dst
  match (← getEnv).copyFault with
  | some k =>
    emit (.copy name stream (min k stream.length) false)
    fileWrite dst (stream.take k)
    halt .copy
  | none =>
    emit (.copy name stream stream.length true)
    fileWrite dst stream
    pure stream.length

/-- `os.Open(dst.Name())` with its error check: a second handle on the file
`dst` is open on, placed at offset 0. -/
def openTemp (dst : Handle) : M Handle := do
  emit .openTemp
  if (← getEnv).reopenFails then halt .openTemp
  else openHandle (← fileName dst)

/-- Modelled from the spec: what `fs.Put(ctx, privkey, bucket, filename,
reader, time.Now())` does is decided by the `crabfs` library, which is not
part of `main.go`. The call, with the error check of `main`: the store reads
`reader` from its offset to the end and publishes the record under the
conflict rule; a failed call publishes nothing. -/
def fsPut (k : PrivKey) (bucket filename : Str) (reader : Handle) : M Unit := do
  let data ← fileRead reader
  let now := (← getEnv).now
  emit (.put k bucket filename data now)
  if (← getEnv).putFails then halt .put
  else
    let w ← getWorld
    setWorld { w with store := w.store.publish k bucket filename data now }

/-- `strings.HasPrefix(s, "crabfs://")`. -/
def hasCrabfsPrefix (s : Str) : Bool := crabfsPrefix.isPrefixOf s

/-- Source: `main`, with `gen` the `-gen` flag and `tail` the positional
arguments left by `flag.Parse()`. -/
def main (gen : Bool) (tail : List Str) : M Unit := do
  if tail.length < 3 then
    usage
    halt .invalidArgs
  let privkeyStr := tail.getD 0 []
  let privkey ←
    if gen then do
      let privkey ← generateKeyPair
      let privkeyFile ← osCreate (.createKey privkeyStr) .createKey privkeyStr
      writeKey privkeyFile privkeyStr privkey
      pure privkey
    else do
      let privkeyFile ← osOpen (.openKey privkeyStr) .openKey privkeyStr
      readPrivateKey privkeyFile
  let srcStr := tail.getD 1 []
  let dstStr := tail.getD 2 []
  tempDir
  crabfsNew
  publishPublicKey privkey
  let srcReader ←
    if hasCrabfsPrefix srcStr then do
      let (bucket, filename) := extractBucketAndFilename srcStr
      fsGet privkey bucket filename
    else do
      let file ← osOpen (.openSource srcStr) .openSource srcStr
      pure (Reader.file file)
  let (pushToCrab, dst) ←
    if hasCrabfsPrefix dstStr then do
      let dst ← tempFile
      pure (true, dst)
    else do
      let dst ← osCreate (.createDest dstStr) .createDest dstStr
      pure (false, dst)
  let n ← ioCopy dst srcReader
  emit (.printCopied n)
  if pushToCrab then
    let (bucket, filename) := extractBucketAndFilename dstStr
    let reader ← openTemp dst
    fsPut privkey bucket filename reader
    emit .printPushed
    emit .awaitSignal
    halt .exit

/-- How a run ends. -/
inductive Outcome where
  | returned
  | stopped (why : Stop)
deriving DecidableEq

/-- A finished run of the program. -/
structure Run where
  trace : List Event
  world : World
  outcome : Outcome

/-- The finished run a result stands for. -/
def Res.toRun : Res Unit → Run
  | .ok _ s => ⟨s.trace, s.world, .returned⟩
  | .stop why s => ⟨s.trace, s.world, .stopped why⟩

/-- Run `main` from world `w` in environment `env`. -/
def runMain (env : Env) (gen : Bool) (tail : List Str) (w : World) : Run :=
  (main gen tail env (St.init w)).toRun

/-! ## The two halves of `main` and predicates on traces -/

/-- First half of `main` once the argument count is checked: load or make
the key, make the temp directory, open the store, publish the key. -/
def front (gen : Bool) (privkeyStr : Str) : M PrivKey := do
  let privkey ←
    if gen then do
      let privkey ← generateKeyPair
      let privkeyFile ← osCreate (.createKey privkeyStr) .createKey privkeyStr
      writeKey privkeyFile privkeyStr privkey
      pure privkey
    else do
      let privkeyFile ← osOpen (.openKey privkeyStr) .openKey privkeyStr
      readPrivateKey privkeyFile
  tempDir
  crabfsNew
  publishPublicKey privkey
  pure privkey

/-- Second half of `main`: open source and destination, copy, push. -/
def back (privkey : PrivKey) (srcStr dstStr : Str) : M Unit := do
  let srcReader ←
    if hasCrabfsPrefix srcStr then do
      let (bucket, filename) := extractBucketAndFilename srcStr
      fsGet privkey bucket filename
    else do
      let file ← osOpen (.openSource srcStr) .openSource srcStr
      pure (Reader.file file)
  let (pushToCrab, dst) ←
    if hasCrabfsPrefix dstStr then do
      let dst ← tempFile
      pure (true, dst)
    else do
      let dst ← osCreate (.createDest dstStr) .createDest dstStr
      pure (false, dst)
  let n ← ioCopy dst srcReader
  emit (.printCopied n)
  if pushToCrab then
    let (bucket, filename) := extractBucketAndFilename dstStr
    let reader ← openTemp dst
    fsPut privkey bucket filename reader
    emit .printPushed
    emit .awaitSignal
    halt .exit

/-- Calls made before the source is opened: key handling, temp directory, store, key publication. -/
def Event.isSetup : Event → Bool
  | .generateKeyPair => true
  | .createKey _ => true
  | .writeKey _ _ => true
  | .openKey _ => true
  | .readPrivateKey => true
  | .tempDir => true
  | .newStore => true
  | .publishPublicKey _ => true
  | _ => false

/-- Call sites before the source is opened. -/
def Stop.isSetup : Stop → Bool
  | .generateKeyPair => true
  | .createKey => true
  | .openKey => true
  | .readPrivateKey => true
  | .tempDir => true
  | .newStore => true
  | .publishPublicKey => true
  | _ => false

/-- Every event `e` of the trace, with the events `pre` before it, satisfies `Q pre e`. -/
def PrecededBy (Q : List Event → Event → Prop) (tr : List Event) : Prop :=
  ∀ pre e post, tr = pre ++ e :: post → Q pre e

/-- No external call of the run fails for a reason outside the world. -/
def Env.NoFault (env : Env) : Prop :=
  (∀ p, env.denyOpen p = false) ∧ (∀ p, env.denyCreate p = false) ∧
    env.tempDirFails = false ∧ env.newFails = false ∧ env.publishPublicKeyFails = false ∧
    env.getFails = false ∧ env.tempFileFails = false ∧ env.copyFault = none ∧
    env.reopenFails = false ∧ env.putFails = false

/-! ## Sample environments and worlds -/

/-- An environment in which every external call succeeds and every path
names a file of its own. -/
def Env.good (k : PrivKey) (now : Nat) : Env where
  resolve := fun p => p
  generateKeyPair := some k
  marshal := fun _ => [1]
  readPrivateKey := fun _ => some k
  denyOpen := fun _ => false
  denyCreate := fun _ => false
  tempDirFails := false
  newFails := false
  publishPublicKeyFails := false
  getFails := false
  tempFileFails := false
  copyFault := none
  reopenFails := false
  putFails := false
  now := now

/-- The good environment, except that `io.Copy` fails after one byte. -/
def Env.copyFails (k : PrivKey) (now : Nat) : Env :=
  { Env.good k now with copyFault := some 1 }

/-- The good environment, except that re-opening the temporary file fails. -/
def Env.reopenFailing (k : PrivKey) (now : Nat) : Env :=
  { Env.good k now with reopenFails := true }

/-- A world holding the key file `k` and the local file `in` with the two bytes `hi`. -/
def World.sample : World where
  files := fun p => if p = ['k'] then some [1] else if p = ['i', 'n'] then some [104, 105] else none
  temp := none
  store := fun _ _ _ => none

/-- The bytes of `hello world`. -/
def helloWorld : Bytes := [104, 101, 108, 108, 111, 32, 119, 111, 114, 108, 100]

/-- A world holding the local file `in` with content `hello world`, no key
file and an empty store. -/
def World.hello : World where
  files := fun p => if p = ['i', 'n'] then some helloWorld else none
  temp := none
  store := fun _ _ _ => none

/-- A world holding the key file `k`, the local file `in` with content
`hello world`, and a store in which the name `b`, `f.txt` of key 7 already
carries the two bytes 9, 9 published at time 200. -/
def World.stale : World where
  files := fun p => if p = ['k'] then some [1] else if p = ['i', 'n'] then some helloWorld
    else none
  temp := none
  store := fun k b f =>
    if k = ⟨7⟩ ∧ b = ['b'] ∧ f = ['f', '.', 't', 'x', 't'] then some ([9, 9], 200) else none

/-! ## The matcher on the address pattern -/

theorem run_lit_nil (c : Char) (g : Groups) : (Regex.lit c).run [] g = [] := rfl

theorem run_lit_cons (c x : Char) (xs : Str) (g : Groups) :
    (Regex.lit c).run (x :: xs) g = if x = c then [(xs, g)] else [] := rfl

theorem run_cls_nil (p : Char → Bool) (g : Groups) : (Regex.cls p).run [] g = [] := rfl

theorem run_cls_cons (p : Char → Bool) (x : Char) (xs : Str) (g : Groups) :
    (Regex.cls p).run (x :: xs) g = if p x = true then [(xs, g)] else [] := rfl

theorem run_cat (r₁ r₂ : Regex) (s : Str) (g : Groups) :
    (Regex.cat r₁ r₂).run s g = (r₁.run s g).flatMap (fun r => r₂.run r.1 r.2) := rfl

theorem run_star (r : Regex) (s : Str) (g : Groups) :
    (Regex.star r).run s g = iterate r.run s.length s g := rfl

theorem run_plus (r : Regex) (s : Str) (g : Groups) :
    (Regex.plus r).run s g =
      (r.run s g).flatMap (fun r₁ => iterate r.run r₁.1.length r₁.1 r₁.2) := rfl

theorem run_cap (i : Nat) (r : Regex) (s : Str) (g : Groups) :
    (Regex.cap i r).run s g =
      (r.run s g).map (fun r₁ => (r₁.1, r₁.2.set i (s.take (s.length - r₁.1.length)))) := rfl

theorem iterate_step (p : Char → Bool) (step : Str → Groups → List (Str × Groups))
    (hstep : ∀ x xs g, step (x :: xs) g = if p x = true then [(xs, g)] else []) (g : Groups) :
    ∀ (n : Nat) (s : Str), s.length ≤ n →
      iterate step n s g = (splits p s).map (fun r => (r, g)) := by
  intro n
  induction n with
  | zero =>
    intro s hs
    have : s = [] := List.length_eq_zero.mp (Nat.le_zero.mp hs)
    subst this
    simp [iterate, splits]
  | succ n ih =>
    intro s hs
    cases s with
    | nil => simp [iterate, splits]
    | cons x xs =>
      have hx : xs.length ≤ n := by simpa using hs
      by_cases hp : p x = true
      · simp [iterate, splits, hstep, hp, ih xs hx]
      · simp [iterate, splits, hstep, hp]

theorem iterate_cls (p : Char → Bool) (g : Groups) (s : Str) :
    iterate (Regex.cls p).run s.length s g = (splits p s).map (fun r => (r, g)) :=
  iterate_step p (Regex.cls p).run (fun x xs g => run_cls_cons p x xs g) g s.length s (Nat.le_refl _)

theorem splits_flatMap {β : Type} (p : Char → Bool) (k : Str → List β)
    (hk : ∀ c t, p c = true → k (c :: t) = []) :
    ∀ s : Str, (splits p s).flatMap k = k (s.dropWhile p) := by
  intro s
  induction s with
  | nil => simp [splits]
  | cons x xs ih =>
    by_cases hp : p x = true
    · simp [splits, hp, List.dropWhile_cons, hk x xs hp]
      simpa [List.flatMap] using ih
    · simp [splits, hp, List.dropWhile_cons]

theorem splits_head (p : Char → Bool) :
    ∀ s : Str, (splits p s).head? = some (s.dropWhile p) := by
  intro s
  induction s with
  | nil => simp [splits]
  | cons x xs ih =>
    by_cases hp : p x = true
    · simp [splits, hp, List.dropWhile_cons, List.head?_append, ih]
    · simp [splits, hp, List.dropWhile_cons]

theorem take_sub_dropWhile (p : Char → Bool) (s : Str) :
    s.take (s.length - (s.dropWhile p).length) = s.takeWhile p := by
  have h := List.takeWhile_append_dropWhile p s
  have hl : (s.takeWhile p).length + (s.dropWhile p).length = s.length := by
    rw [← List.length_append]
    exact congrArg List.length h
  have e : s.length - (s.dropWhile p).length = (s.takeWhile p).length := by omega
  have t : (s.takeWhile p ++ s.dropWhile p).take (s.takeWhile p).length = s.takeWhile p :=
    List.take_left' rfl
  rw [e]
  rwa [h] at t

theorem run_lits (r : Regex) (g : Groups) :
    ∀ (cs s : Str), (Regex.lits cs r).run s g =
      if cs.isPrefixOf s = true then r.run (s.drop cs.length) g else [] := by
  intro cs
  induction cs with
  | nil => intro s; simp [Regex.lits]
  | cons c cs ih =>
    intro s
    have ih2 : ∀ s, (Regex.lits cs r).run s g =
        if cs.isPrefixOf s = true then r.run (s.drop cs.length) g else [] := ih
    have e : Regex.lits (c :: cs) r = .cat (.lit c) (Regex.lits cs r) := rfl
    rw [e]
    cases s with
    | nil => simp [run_cat, run_lit_nil]
    | cons x xs =>
      by_cases hx : x = c
      · subst hx
        simp [run_cat, run_lit_cons, ih2]
      · have hx2 : ¬ c = x := fun h => hx h.symm
        simp [run_cat, run_lit_cons, hx, hx2]

theorem run_addressTail_word (c : Char) (t : Str) (g : Groups) (hc : isWordChar c = true) :
    addressTail.run (c :: t) g = [] := by
  have h : c ≠ '/' := by
    intro h
    subst h
    exact absurd hc (by decide)
  simp [addressTail, run_cat, run_lit_cons, h]

theorem head_addressTail (u : Str) (g : Groups) :
    (addressTail.run u g).head? =
      match u with
      | [] => none
      | c :: v => if c = '/' then some (v.dropWhile isDotChar, g.set 2 (v.takeWhile isDotChar))
                  else none := by
  cases u with
  | nil => simp [addressTail, run_cat, run_lit_nil]
  | cons c v =>
    by_cases hc : c = '/'
    · subst hc
      simp [addressTail, run_cat, run_lit_cons, run_cap, run_star, iterate_cls,
        List.head?_map, splits_head, take_sub_dropWhile]
    · simp [addressTail, run_cat, run_lit_cons, hc]

theorem head_addressBody (t : Str) (g : Groups) :
    (addressBody.run t g).head? =
      match t.dropWhile isWordChar with
      | [] => none
      | c :: v =>
        if c = '/' ∧ t.takeWhile isWordChar ≠ [] then
          some (v.dropWhile isDotChar,
            (g.set 1 (t.takeWhile isWordChar)).set 2 (v.takeWhile isDotChar))
        else none := by
  have hb : addressBody = .cat (.cap 1 (.plus (.cls isWordChar))) addressTail := rfl
  cases t with
  | nil => simp [hb, run_cat, run_cap, run_plus, run_cls_nil]
  | cons x xs =>
    by_cases hx : isWordChar x = true
    · have hk : ∀ c t, isWordChar c = true →
          (fun r : Str => addressTail.run r
            (g.set 1 ((x :: xs).take ((x :: xs).length - r.length)))) (c :: t) = [] :=
        fun c t hc => run_addressTail_word c t _ hc
      have hf := splits_flatMap isWordChar
        (fun r : Str => addressTail.run r
          (g.set 1 ((x :: xs).take ((x :: xs).length - r.length)))) hk xs
      have ht := take_sub_dropWhile isWordChar (x :: xs)
      simp only [List.dropWhile_cons, List.takeWhile_cons, hx, if_true] at ht
      have e : (addressBody.run (x :: xs) g) =
          addressTail.run (xs.dropWhile isWordChar)
            (g.set 1 (x :: xs.takeWhile isWordChar)) := by
        rw [← ht, ← hf]
        simp [hb, run_cat, run_cap, run_plus, run_cls_cons, hx, iterate_cls,
          List.flatMap_map]
      rw [e, head_addressTail]
      simp only [List.dropWhile_cons, List.takeWhile_cons, hx, if_true]
      cases List.dropWhile isWordChar xs with
      | nil => rfl
      | cons c v => simp
    · simp [hb, run_cat, run_cap, run_plus, run_cls_cons, hx, List.dropWhile_cons,
        List.takeWhile_cons]

theorem matchHere_address (s : Str) :
    (addressRegex.matchHere s).map (fun g => (g.getD 1 [], g.getD 2 [])) = parseHere s := by
  have ha : addressRegex = Regex.lits crabfsPrefix addressBody := rfl
  have hn : addressRegex.numCap = 2 := by decide
  unfold Regex.matchHere parseHere
  rw [run_cap, hn, ha, run_lits]
  by_cases hp : crabfsPrefix.isPrefixOf s = true
  · simp only [hp, if_true, List.head?_map, head_addressBody]
    cases List.dropWhile isWordChar (s.drop crabfsPrefix.length) with
    | nil => rfl
    | cons c v =>
      by_cases hc : c = '/' ∧ (s.drop crabfsPrefix.length).takeWhile isWordChar ≠ []
      · simp [hc, List.replicate]
      · simp [hc]
  · simp [hp]

theorem findStringSubmatch_address :
    ∀ s : Str, (addressRegex.findStringSubmatch s).map (fun g => (g.getD 1 [], g.getD 2 [])) =
      parseFirst s := by
  intro s
  induction s with
  | nil =>
    have h := matchHere_address []
    simpa [Regex.findStringSubmatch, parseFirst, parseHere, crabfsPrefix] using h
  | cons c cs ih =>
    have h := matchHere_address (c :: cs)
    unfold Regex.findStringSubmatch parseFirst
    cases hm : addressRegex.matchHere (c :: cs) with
    | none =>
      rw [hm] at h
      simp only [Option.map_none'] at h
      rw [← h]
      exact ih
    | some g =>
      rw [hm] at h
      simp only [Option.map_some'] at h
      rw [← h]
      rfl

/-- The parser is the direct reading of the pattern at the leftmost position
where it applies; without such a position both results are empty. -/
theorem extract_eq (s : Str) :
    extractBucketAndFilename s = (parseFirst s).getD ([], []) := by
  have h := findStringSubmatch_address s
  unfold extractBucketAndFilename
  cases hm : addressRegex.findStringSubmatch s with
  | none => rw [hm] at h; simp only [Option.map_none'] at h; rw [← h]; rfl
  | some g => rw [hm] at h; simp only [Option.map_some'] at h; rw [← h]; rfl

theorem isDotChar_iff (c : Char) : isDotChar c = true ↔ c ≠ '\n' := by
  constructor
  · intro h hc
    subst hc
    exact absurd h (by decide)
  · intro h
    by_contra hn
    have h10 : c.toNat = 10 := by simpa [isDotChar] using hn
    apply h
    rw [← Char.ofNat_toNat c, h10]

theorem slash_not_word : isWordChar '/' = false := by decide

theorem parseHere_wf (b f : Str) (hb : b ≠ []) (hw : ∀ c ∈ b, isWordChar c = true) :
    parseHere (crabfsPrefix ++ (b ++ '/' :: f)) = some (b, f.takeWhile isDotChar) := by
  have hp : crabfsPrefix.isPrefixOf (crabfsPrefix ++ (b ++ '/' :: f)) = true := by
    rw [List.isPrefixOf_iff_prefix]
    exact List.prefix_append _ _
  have hd : (crabfsPrefix ++ (b ++ '/' :: f)).drop crabfsPrefix.length = b ++ '/' :: f :=
    List.drop_left _ _
  have ht : (b ++ '/' :: f).takeWhile isWordChar = b := by
    rw [List.takeWhile_append_of_pos hw]
    simp [List.takeWhile_cons, slash_not_word]
  have hdw : (b ++ '/' :: f).dropWhile isWordChar = '/' :: f := by
    rw [List.dropWhile_append_of_pos hw]
    simp [List.dropWhile_cons, slash_not_word]
  unfold parseHere
  rw [if_pos hp, hd, hdw]
  simp [ht, hb]

theorem parseHere_eq_some_iff (t : Str) (r : Str × Str) :
    parseHere t = some r ↔
      ∃ b f, b ≠ [] ∧ (∀ c ∈ b, isWordChar c = true) ∧
        t = crabfsPrefix ++ (b ++ '/' :: f) ∧ r = (b, f.takeWhile isDotChar) := by
  constructor
  · intro h
    unfold parseHere at h
    by_cases hp : crabfsPrefix.isPrefixOf t = true
    · rw [if_pos hp] at h
      have hpre : crabfsPrefix ++ t.drop crabfsPrefix.length = t :=
        List.prefix_iff_eq_append.mp (List.isPrefixOf_iff_prefix.mp hp)
      have hsplit := List.takeWhile_append_dropWhile isWordChar (t.drop crabfsPrefix.length)
      cases hd : (t.drop crabfsPrefix.length).dropWhile isWordChar with
      | nil => rw [hd] at h; simp at h
      | cons c v =>
        rw [hd] at h
        dsimp only at h
        by_cases hc : c = '/' ∧ (t.drop crabfsPrefix.length).takeWhile isWordChar ≠ []
        · rw [if_pos hc] at h
          refine ⟨(t.drop crabfsPrefix.length).takeWhile isWordChar, v, hc.2,
            fun c hc => List.mem_takeWhile_imp hc, ?_, ?_⟩
          · rw [hd, hc.1] at hsplit
            rw [hsplit]
            exact hpre.symm
          · exact (Option.some.inj h).symm
        · rw [if_neg hc] at h
          exact absurd h (by simp)
    · rw [if_neg hp] at h
      exact absurd h (by simp)
  · rintro ⟨b, f, hb, hw, rfl, rfl⟩
    exact parseHere_wf b f hb hw

theorem parseFirst_skip (t : Str) :
    ∀ p : Str, (∀ q, q ≠ [] → q <:+ p → parseHere (q ++ t) = none) →
      parseFirst (p ++ t) = parseFirst t := by
  intro p
  induction p with
  | nil => intro _; rfl
  | cons c cs ih =>
    intro h
    have h0 := h (c :: cs) (by simp) (List.suffix_refl _)
    have hrest : ∀ q, q ≠ [] → q <:+ cs → parseHere (q ++ t) = none :=
      fun q hq hs => h q hq (List.suffix_cons_iff.mpr (Or.inr hs))
    have e : parseFirst ((c :: cs) ++ t) = parseFirst (cs ++ t) := by
      show parseFirst (c :: (cs ++ t)) = _
      rw [parseFirst]
      rw [show c :: (cs ++ t) = (c :: cs) ++ t from rfl, h0]
    rw [e]
    exact ih hrest

theorem parseFirst_of_parseHere (t : Str) (r : Str × Str) (h : parseHere t = some r) :
    parseFirst t = some r := by
  cases t with
  | nil => simp [parseHere, crabfsPrefix] at h
  | cons c cs => rw [parseFirst, h]

theorem isDotChar_eq : isDotChar = fun c => decide (c ≠ '\n') := by
  funext c
  rw [Bool.eq_iff_iff]
  simpa using isDotChar_iff c

theorem takeWhile_isDotChar_of_not_mem (f : Str) (h : '\n' ∉ f) : f.takeWhile isDotChar = f := by
  rw [List.takeWhile_eq_self_iff]
  intro c hc
  rw [isDotChar_iff]
  intro e
  exact h (e ▸ hc)

/-- On a well-formed address the parser returns the bucket and the file name
up to the first line feed. -/
theorem extract_wf (b f : Str) (hb : b ≠ []) (hw : ∀ c ∈ b, isWordChar c = true) :
    extractBucketAndFilename (crabfsPrefix ++ b ++ '/' :: f) = (b, f.takeWhile isDotChar) := by
  rw [extract_eq, List.append_assoc,
    parseFirst_of_parseHere _ _ (parseHere_wf b f hb hw)]
  rfl

/-! ## Theorems on the address parser -/

/-- C8: for a non-empty bucket `b` of word characters and any `f`, the parser
applied to `crabfs://b/f` returns `b` and the longest prefix of `f` without a
line feed: the returned file name is a prefix of `f`, holds no line feed, no
line-feed-free prefix of `f` is longer, and it is `f` itself when `f` has no
line feed. -/
theorem extract_filename_stops_at_newline (b f : Str) (hb : b ≠ [])
    (hw : ∀ c ∈ b, isWordChar c = true) :
    extractBucketAndFilename (crabfsPrefix ++ b ++ '/' :: f)
        = (b, f.takeWhile (fun c => decide (c ≠ '\n'))) ∧
      f.takeWhile (fun c => decide (c ≠ '\n')) <+: f ∧
      '\n' ∉ f.takeWhile (fun c => decide (c ≠ '\n')) ∧
      (∀ p : Str, p <+: f → '\n' ∉ p →
        p.length ≤ (f.takeWhile (fun c => decide (c ≠ '\n'))).length) ∧
      ('\n' ∉ f → f.takeWhile (fun c => decide (c ≠ '\n')) = f) := by
  rw [← isDotChar_eq]
  refine ⟨extract_wf b f hb hw, List.takeWhile_prefix _, ?_, ?_, takeWhile_isDotChar_of_not_mem f⟩
  · intro hmem
    have := List.mem_takeWhile_imp hmem
    exact absurd this (by decide)
  · rintro p ⟨r, rfl⟩ hp
    have hall : ∀ c ∈ p, isDotChar c = true := by
      intro c hc
      rw [isDotChar_iff]
      intro e
      exact hp (e ▸ hc)
    rw [List.takeWhile_append_of_pos hall]
    simp

/-- Witness for C8 at bucket `b` and file name `x`, line feed, `y`. -/
theorem extract_filename_stops_at_newline_witness :
    extractBucketAndFilename (crabfsPrefix ++ ['b'] ++ '/' :: ['x', '\n', 'y'])
        = (['b'], ['x', '\n', 'y'].takeWhile (fun c => decide (c ≠ '\n'))) ∧
      ['x', '\n', 'y'].takeWhile (fun c => decide (c ≠ '\n')) = ['x'] :=
  ⟨(extract_filename_stops_at_newline ['b'] ['x', '\n', 'y'] (by decide) (by decide)).1,
    by decide⟩

/-- C1 fails as stated: on `crabfs://b/x⏎y` the parser returns the file name
`x`, not the whole remainder `x⏎y`. -/
theorem extract_roundtrip_counterexample :
    extractBucketAndFilename (crabfsPrefix ++ ['b'] ++ '/' :: ['x', '\n', 'y']) = (['b'], ['x']) ∧
      extractBucketAndFilename (crabfsPrefix ++ ['b'] ++ '/' :: ['x', '\n', 'y'])
        ≠ (['b'], ['x', '\n', 'y']) := by
  decide

/-- C1, amended: for a non-empty bucket `b` of word characters and every file
name `f` without a line feed (possibly empty, possibly with slashes), the
parser applied to `crabfs://b/f` returns exactly `(b, f)`. -/
theorem extract_roundtrip (b f : Str) (hb : b ≠ []) (hw : ∀ c ∈ b, isWordChar c = true)
    (hf : '\n' ∉ f) :
    extractBucketAndFilename (crabfsPrefix ++ b ++ '/' :: f) = (b, f) := by
  rw [extract_wf b f hb hw, takeWhile_isDotChar_of_not_mem f hf]

/-- Witness for the amended C1 at `crabfs://bucket_1/dir/file.ext`. -/
theorem extract_roundtrip_witness :
    extractBucketAndFilename (crabfsPrefix ++ "bucket_1".toList ++ '/' :: "dir/file.ext".toList)
      = ("bucket_1".toList, "dir/file.ext".toList) :=
  extract_roundtrip "bucket_1".toList "dir/file.ext".toList (by decide) (by decide) (by decide)

theorem no_straddle (q rest : Str) (hq : q ≠ [])
    (h : crabfsPrefix <+: q ++ (crabfsPrefix ++ rest)) : crabfsPrefix <+: q := by
  unfold crabfsPrefix at h ⊢
  rcases q with _ | ⟨c1, _ | ⟨c2, _ | ⟨c3, _ | ⟨c4, _ | ⟨c5, _ | ⟨c6, _ | ⟨c7, _ | ⟨c8, _ |
    ⟨c9, q⟩⟩⟩⟩⟩⟩⟩⟩⟩
  · exact absurd rfl hq
  all_goals simp at h
  simpa using h

theorem parseFirst_some (s : Str) (r : Str × Str) (h : parseFirst s = some r) :
    ∃ p b f, MatchAt s p b f ∧ r = (b, f.takeWhile isDotChar) := by
  induction s with
  | nil => simp [parseFirst] at h
  | cons c cs ih =>
    rw [parseFirst] at h
    cases hh : parseHere (c :: cs) with
    | some r' =>
      rw [hh] at h
      have hr : r' = r := Option.some.inj h
      subst hr
      obtain ⟨b, f, hb, hw, ht, hr⟩ := (parseHere_eq_some_iff _ _).mp hh
      exact ⟨[], b, f, ⟨hb, hw, by simpa using ht⟩, hr⟩
    | none =>
      rw [hh] at h
      obtain ⟨p, b, f, ⟨hb, hw, hs⟩, hr⟩ := ih h
      exact ⟨c :: p, b, f, ⟨hb, hw, by simp [hs]⟩, hr⟩

theorem parseFirst_isSome_of_match (s p b t : Str) (h : MatchAt s p b t) :
    (parseFirst s).isSome = true := by
  obtain ⟨hb, hw, rfl⟩ := h
  have hh := parseHere_wf b t hb hw
  induction p with
  | nil =>
    have := parseFirst_of_parseHere _ _ hh
    simpa using Option.isSome_iff_exists.mpr ⟨_, this⟩
  | cons c cs ih =>
    show (parseFirst (c :: (cs ++ crabfsPrefix ++ b ++ '/' :: t))).isSome = true
    rw [parseFirst]
    cases parseHere (c :: (cs ++ crabfsPrefix ++ b ++ '/' :: t)) with
    | some r => rfl
    | none => exact ih

theorem parseFirst_eq_none_iff (s : Str) : parseFirst s = none ↔ ¬ HasMatch s := by
  constructor
  · rintro h ⟨p, b, t, hm⟩
    have := parseFirst_isSome_of_match s p b t hm
    rw [h] at this
    exact absurd this (by simp)
  · intro h
    cases hp : parseFirst s with
    | none => rfl
    | some r =>
      obtain ⟨p, b, f, hm, _⟩ := parseFirst_some s r hp
      exact absurd ⟨p, b, f, hm⟩ h

/-- The parser's result at the leftmost match of the pattern. -/
theorem parseFirst_leftmost (s p b t : Str) (h : MatchAt s p b t)
    (hmin : ∀ p' b' t', MatchAt s p' b' t' → p.length ≤ p'.length) :
    parseFirst s = some (b, t.takeWhile isDotChar) := by
  obtain ⟨hb, hw, hs⟩ := h
  have hs2 : s = p ++ (crabfsPrefix ++ (b ++ '/' :: t)) := by simpa using hs
  have hskip : ∀ q, q ≠ [] → q <:+ p →
      parseHere (q ++ (crabfsPrefix ++ (b ++ '/' :: t))) = none := by
    rintro q hq ⟨p0, rfl⟩
    cases hh : parseHere (q ++ (crabfsPrefix ++ (b ++ '/' :: t))) with
    | none => rfl
    | some r =>
      obtain ⟨b', f', hb', hw', ht', _⟩ := (parseHere_eq_some_iff _ _).mp hh
      have hm : MatchAt s p0 b' f' := ⟨hb', hw', by rw [hs2]; simp [ht']⟩
      have hl := hmin p0 b' f' hm
      have hq0 : 0 < q.length := List.length_pos.mpr hq
      rw [List.length_append] at hl
      omega
  rw [hs2, parseFirst_skip _ p hskip]
  exact parseFirst_of_parseHere _ _ (parseHere_wf b t hb hw)

theorem word_ne_slash (c : Char) (h : isWordChar c = true) : c ≠ '/' := by
  intro e
  subst e
  exact absurd h (by decide)

theorem bucketSegment_wf (b t : Str) (hw : ∀ c ∈ b, isWordChar c = true) :
    bucketSegment (b ++ '/' :: t) = b := by
  have h : ∀ c ∈ b, decide (c ≠ '/') = true := fun c hc => by
    simpa using word_ne_slash c (hw c hc)
  unfold bucketSegment
  rw [List.takeWhile_append_of_pos h]
  simp

/-- C3 fails as stated: `crabfs://crabfs://b/f` starts with the prefix and its
bucket segment `crabfs:` holds the non-word character `:`, yet the parser
returns `(b, f)`, taken from the second occurrence of the prefix. -/
theorem extract_bad_bucket_counterexample :
    BadBucket "crabfs://b/f".toList ∧
      extractBucketAndFilename (crabfsPrefix ++ "crabfs://b/f".toList) = (['b'], ['f']) ∧
      extractBucketAndFilename (crabfsPrefix ++ "crabfs://b/f".toList) ≠ ([], []) :=
  ⟨Or.inr (Or.inl ⟨':', by decide, by decide⟩), by decide, by decide⟩

/-- C3, amended: for every `s = crabfs://rest` whose bucket segment is empty,
holds a character outside `\w`, or is not followed by a slash, and in which
the address pattern applies at no later position, the parser returns two
empty strings. -/
theorem extract_bad_bucket (rest : Str) (hbad : BadBucket rest)
    (hlater : ∀ p b t, MatchAt (crabfsPrefix ++ rest) p b t → p = []) :
    extractBucketAndFilename (crabfsPrefix ++ rest) = ([], []) := by
  have hno : ¬ HasMatch (crabfsPrefix ++ rest) := by
    rintro ⟨p, b, t, hm⟩
    have hp := hlater p b t hm
    subst hp
    obtain ⟨hb, hw, hs⟩ := hm
    have hr : rest = b ++ '/' :: t := by
      have : crabfsPrefix ++ rest = crabfsPrefix ++ (b ++ '/' :: t) := by simpa using hs
      exact List.append_cancel_left this
    subst hr
    rw [BadBucket, bucketSegment_wf b t hw] at hbad
    rcases hbad with h | ⟨c, hc, hcw⟩ | h
    · exact hb h
    · rw [hw c hc] at hcw
      exact absurd hcw (by simp)
    · exact h (by simp)
  rw [extract_eq, (parseFirst_eq_none_iff _).mpr hno]
  rfl

/-- Witness for the amended C3 at `crabfs://my-bucket/f`. -/
theorem extract_bad_bucket_witness :
    extractBucketAndFilename (crabfsPrefix ++ "my-bucket/f".toList) = ([], []) :=
  extract_bad_bucket "my-bucket/f".toList (Or.inr (Or.inl ⟨'-', by decide, by decide⟩))
    (fun p b t hm => by
      by_contra hp
      have h1 : (parseFirst (crabfsPrefix ++ "my-bucket/f".toList)).isSome = true :=
        parseFirst_isSome_of_match _ p b t hm
      exact absurd h1 (by decide))

/-- C4: the bucket returned by the parser holds only word characters; it is
empty exactly when the input contains no match of the address pattern, and
then the returned file name is empty too. -/
theorem extract_bucket_wellformed (s : Str) :
    (∀ c ∈ (extractBucketAndFilename s).1, isWordChar c = true) ∧
      ((extractBucketAndFilename s).1 = [] ↔ ¬ HasMatch s) ∧
      (¬ HasMatch s → (extractBucketAndFilename s).2 = []) := by
  rw [extract_eq]
  cases hp : parseFirst s with
  | none =>
    have hno := (parseFirst_eq_none_iff s).mp hp
    simp [hno]
  | some r =>
    obtain ⟨p, b, f, hm, hr⟩ := parseFirst_some s r hp
    have hyes : HasMatch s := ⟨p, b, f, hm⟩
    subst hr
    simp only [Option.getD_some]
    exact ⟨hm.2.1, ⟨fun h => absurd h hm.1, fun h => absurd hyes h⟩, fun h => absurd hyes h⟩

/-- Witness for C4: the bare prefix `crabfs://` contains no match of the pattern. -/
theorem extract_bucket_wellformed_witness :
    ¬ HasMatch crabfsPrefix ∧ (extractBucketAndFilename crabfsPrefix).2 = [] :=
  ⟨(extract_bucket_wellformed crabfsPrefix).2.1.mp (by decide),
    (extract_bucket_wellformed crabfsPrefix).2.2
      ((extract_bucket_wellformed crabfsPrefix).2.1.mp (by decide))⟩

/-- C9: the pattern is not anchored. If `p` does not contain `crabfs://`, `b`
is a non-empty run of word characters and `f` has no line feed, the parser
applied to `p ++ crabfs://b/f` returns `(b, f)`; and in general the result is
read off the leftmost position at which the pattern applies: the bucket that
stands there and the text after its slash up to the first line feed. -/
theorem extract_unanchored :
    (∀ p b f : Str, ¬ crabfsPrefix <:+: p → b ≠ [] → (∀ c ∈ b, isWordChar c = true) →
        '\n' ∉ f → extractBucketAndFilename (p ++ crabfsPrefix ++ b ++ '/' :: f) = (b, f)) ∧
      (∀ s p b t : Str, MatchAt s p b t →
        (∀ p' b' t', MatchAt s p' b' t' → p.length ≤ p'.length) →
        extractBucketAndFilename s = (b, t.takeWhile (fun c => decide (c ≠ '\n')))) := by
  constructor
  · intro p b f hp hb hw hf
    have hskip : ∀ q, q ≠ [] → q <:+ p →
        parseHere (q ++ (crabfsPrefix ++ (b ++ '/' :: f))) = none := by
      intro q hq hqp
      cases hh : parseHere (q ++ (crabfsPrefix ++ (b ++ '/' :: f))) with
      | none => rfl
      | some r =>
        obtain ⟨b', f', _, _, ht', _⟩ := (parseHere_eq_some_iff _ _).mp hh
        have hpre : crabfsPrefix <+: q ++ (crabfsPrefix ++ (b ++ '/' :: f)) := ⟨_, ht'.symm⟩
        have hin := (no_straddle q _ hq hpre).isInfix.trans hqp.isInfix
        exact absurd hin hp
    rw [extract_eq]
    have e : p ++ crabfsPrefix ++ b ++ '/' :: f = p ++ (crabfsPrefix ++ (b ++ '/' :: f)) := by
      simp
    rw [e, parseFirst_skip _ p hskip,
      parseFirst_of_parseHere _ _ (parseHere_wf b f hb hw), takeWhile_isDotChar_of_not_mem f hf]
    rfl
  · intro s p b t hm hmin
    rw [extract_eq, parseFirst_leftmost s p b t hm hmin, ← isDotChar_eq]
    rfl

/-- Witness for C9 at `cp crabfs://b/f`, whose leading `cp ` holds no prefix. -/
theorem extract_unanchored_witness :
    extractBucketAndFilename ("cp ".toList ++ crabfsPrefix ++ ['b'] ++ '/' :: ['f'])
      = (['b'], ['f']) :=
  extract_unanchored.1 "cp ".toList ['b'] ['f'] (by decide) (by decide) (by decide) (by decide)

/-! ## Evaluation rules for the driver -/

theorem Res.andThen_ok {α β : Type} (a : α) (s : St) (f : α → St → Res β) :
    (Res.ok a s).andThen f = f a s := rfl

theorem Res.andThen_stop {α β : Type} (why : Stop) (s : St) (f : α → St → Res β) :
    (Res.stop why s : Res α).andThen f = .stop why s := rfl

theorem Res.andThen_ite {α β : Type} (c : Prop) [Decidable c] (r₁ r₂ : Res α)
    (f : α → St → Res β) :
    (if c then r₁ else r₂).andThen f = if c then r₁.andThen f else r₂.andThen f := by
  split <;> rfl

theorem M.bind_run {α β : Type} (m : M α) (f : α → M β) (env : Env) (s : St) :
    (m >>= f) env s = (m env s).andThen (fun a s' => f a env s') := rfl

theorem M.pure_run {α : Type} (a : α) (env : Env) (s : St) :
    (pure a : M α) env s = .ok a s := rfl

theorem M.ite_run {α : Type} (c : Prop) [Decidable c] (a b : M α) (env : Env) (s : St) :
    (if c then a else b) env s = if c then a env s else b env s := by
  split <;> rfl

theorem emit_run (e : Event) (env : Env) (s : St) :
    emit e env s = .ok () { s with trace := s.trace ++ [e] } := rfl

theorem halt_run {α : Type} (why : Stop) (env : Env) (s : St) :
    (halt why : M α) env s = .stop why s := rfl

theorem usage_run (env : Env) (s : St) :
    usage env s = .ok () { s with trace := s.trace ++ [.usage] } := rfl

theorem openHandle_run (name : File) (env : Env) (s : St) :
    openHandle name env s =
      .ok ⟨s.next⟩
        { s with
          handles := fun n => if n = s.next then ⟨name, 0⟩ else s.handles n
          next := s.next + 1 } := rfl

theorem fileName_run (f : Handle) (env : Env) (s : St) :
    fileName f env s = .ok (s.handles f.fd).name s := rfl

theorem fileRead_run (f : Handle) (env : Env) (s : St) :
    fileRead f env s =
      .ok ((s.world.content env (s.handles f.fd).name).drop (s.handles f.fd).offset)
        { s with
          handles := fun n =>
            if n = f.fd then
              ⟨(s.handles f.fd).name,
                max (s.handles f.fd).offset (s.world.content env (s.handles f.fd).name).length⟩
            else s.handles n } := rfl

theorem fileWrite_run (f : Handle) (data : Bytes) (env : Env) (s : St) :
    fileWrite f data env s =
      .ok ()
        { s with
          world := s.world.setContent env (s.handles f.fd).name
            (writeAt (s.world.content env (s.handles f.fd).name) (s.handles f.fd).offset data)
          handles := fun n =>
            if n = f.fd then ⟨(s.handles f.fd).name, (s.handles f.fd).offset + data.length⟩
            else s.handles n } := rfl

theorem generateKeyPair_run (env : Env) (s : St) :
    generateKeyPair env s =
      if env.generateKeyPair.isNone = true then
        .stop .generateKeyPair { s with trace := s.trace ++ [.generateKeyPair] }
      else .ok (env.generateKeyPair.getD ⟨0⟩) { s with trace := s.trace ++ [.generateKeyPair] } := by
  unfold generateKeyPair
  simp only [M.bind_run, emit_run, getEnv, Res.andThen_ok]
  cases env.generateKeyPair <;> rfl

theorem osCreate_run (ev : Event) (why : Stop) (path : Str) (env : Env) (s : St) :
    osCreate ev why path env s =
      if env.denyCreate path = true then .stop why { s with trace := s.trace ++ [ev] }
      else openHandle (.named path) env
        { s with
          world := s.world.setContent env (.named path) []
          trace := s.trace ++ [ev] } := by
  unfold osCreate
  simp only [M.bind_run, emit_run, getEnv, getWorld, setWorld, Res.andThen_ok, M.ite_run]
  split <;> rfl

theorem osOpen_run (ev : Event) (why : Stop) (path : Str) (env : Env) (s : St) :
    osOpen ev why path env s =
      if (env.denyOpen path || (s.world.files (env.resolve path)).isNone) = true then
        .stop why { s with trace := s.trace ++ [ev] }
      else openHandle (.named path) env { s with trace := s.trace ++ [ev] } := by
  unfold osOpen
  simp only [M.bind_run, emit_run, getEnv, getWorld, Res.andThen_ok, M.ite_run]
  split <;> rfl

theorem writeKey_run (f : Handle) (path : Str) (k : PrivKey) (env : Env) (s : St) :
    writeKey f path k env s =
      fileWrite f (env.marshal k) env
        { s with trace := s.trace ++ [.writeKey path (env.marshal k)] } := rfl

theorem readPrivateKey_run (f : Handle) (env : Env) (s : St) :
    readPrivateKey f env s =
      (fileRead f env { s with trace := s.trace ++ [.readPrivateKey] }).andThen
        (fun data s' =>
          if (env.readPrivateKey data).isNone = true then .stop .readPrivateKey s'
          else .ok ((env.readPrivateKey data).getD ⟨0⟩) s') := by
  unfold readPrivateKey
  simp only [M.bind_run, emit_run, getEnv, fileRead_run, Res.andThen_ok]
  cases env.readPrivateKey _ <;> rfl

theorem tempDir_run (env : Env) (s : St) :
    tempDir env s =
      if env.tempDirFails = true then .stop .tempDir { s with trace := s.trace ++ [.tempDir] }
      else .ok () { s with trace := s.trace ++ [.tempDir] } := by
  unfold tempDir
  simp only [M.bind_run, emit_run, getEnv, Res.andThen_ok, M.ite_run]
  split <;> rfl

theorem crabfsNew_run (env : Env) (s : St) :
    crabfsNew env s =
      if env.newFails = true then .stop .newStore { s with trace := s.trace ++ [.newStore] }
      else .ok () { s with trace := s.trace ++ [.newStore] } := by
  unfold crabfsNew
  simp only [M.bind_run, emit_run, getEnv, Res.andThen_ok, M.ite_run]
  split <;> rfl

theorem publishPublicKey_run (k : PrivKey) (env : Env) (s : St) :
    publishPublicKey k env s =
      if env.publishPublicKeyFails = true then
        .stop .publishPublicKey { s with trace := s.trace ++ [.publishPublicKey k] }
      else .ok () { s with trace := s.trace ++ [.publishPublicKey k] } := by
  unfold publishPublicKey
  simp only [M.bind_run, emit_run, getEnv, Res.andThen_ok, M.ite_run]
  split <;> rfl

theorem fsGet_run (k : PrivKey) (bucket filename : Str) (env : Env) (s : St) :
    fsGet k bucket filename env s =
      if ((s.world.store k bucket filename).isNone || env.getFails) = true then
        .stop .get { s with trace := s.trace ++ [.get k bucket filename] }
      else .ok (.fetcher ((s.world.store k bucket filename).getD ([], 0)).1)
        { s with trace := s.trace ++ [.get k bucket filename] } := by
  unfold fsGet
  simp only [M.bind_run, emit_run, getEnv, getWorld, Res.andThen_ok]
  cases s.world.store k bucket filename with
  | none => rfl
  | some r =>
    cases hg : env.getFails <;>
      simp [M.bind_run, getEnv, Res.andThen_ok, M.ite_run, hg, halt_run, M.pure_run]

theorem tempFile_run (env : Env) (s : St) :
    tempFile env s =
      if env.tempFileFails = true then .stop .tempFile { s with trace := s.trace ++ [.tempFile] }
      else openHandle .temp env
        { s with
          world := { s.world with temp := some [] }
          trace := s.trace ++ [.tempFile] } := by
  unfold tempFile
  simp only [M.bind_run, emit_run, getEnv, getWorld, setWorld, Res.andThen_ok, M.ite_run]
  split <;> rfl

theorem readAll_file_run (f : Handle) (env : Env) (s : St) :
    (Reader.file f).readAll env s = fileRead f env s := rfl

theorem readAll_fetcher_run (content : Bytes) (env : Env) (s : St) :
    (Reader.fetcher content).readAll env s = .ok content s := rfl

theorem ioCopy_run (dst : Handle) (src : Reader) (env : Env) (s : St) :
    ioCopy dst src env s =
      (src.readAll env s).andThen (fun stream s' =>
        if env.copyFault.isNone = true then
          (fileWrite dst stream env
            { s' with trace := s'.trace ++
                [.copy (s'.handles dst.fd).name stream stream.length true] }).andThen
            (fun _ s'' => .ok stream.length s'')
        else
          (fileWrite dst (stream.take (env.copyFault.getD 0)) env
            { s' with trace := s'.trace ++
                [.copy (s'.handles dst.fd).name stream
                  (min (env.copyFault.getD 0) stream.length) false] }).andThen
            (fun _ s'' => .stop .copy s'')) := by
  unfold ioCopy
  simp only [M.bind_run, getEnv, fileName_run, Res.andThen_ok]
  congr 1
  funext stream s'
  cases env.copyFault <;> rfl

theorem openTemp_run (dst : Handle) (env : Env) (s : St) :
    openTemp dst env s =
      if env.reopenFails = true then .stop .openTemp { s with trace := s.trace ++ [.openTemp] }
      else openHandle (s.handles dst.fd).name env { s with trace := s.trace ++ [.openTemp] } := by
  unfold openTemp
  simp only [M.bind_run, emit_run, getEnv, fileName_run, Res.andThen_ok, M.ite_run]
  split <;> rfl

theorem fsPut_run (k : PrivKey) (bucket filename : Str) (reader : Handle) (env : Env)
    (s : St) :
    fsPut k bucket filename reader env s =
      (fileRead reader env s).andThen (fun data s' =>
        if env.putFails = true then
          .stop .put { s' with trace := s'.trace ++ [.put k bucket filename data env.now] }
        else
          .ok ()
            { s' with
              world := { s'.world with
                store := s'.world.store.publish k bucket filename data env.now }
              trace := s'.trace ++ [.put k bucket filename data env.now] }) := by
  unfold fsPut
  simp only [M.bind_run, emit_run, getEnv, getWorld, setWorld, Res.andThen_ok, M.ite_run]
  congr 1

theorem Res.toRun_ite (c : Prop) [Decidable c] (r₁ r₂ : Res Unit) :
    (if c then r₁ else r₂).toRun = if c then r₁.toRun else r₂.toRun := by
  split <;> rfl

theorem Res.toRun_ok (a : Unit) (s : St) :
    (Res.ok a s).toRun = ⟨s.trace, s.world, .returned⟩ := rfl

theorem Res.toRun_stop (why : Stop) (s : St) :
    (Res.stop why s : Res Unit).toRun = ⟨s.trace, s.world, .stopped why⟩ := rfl

theorem Res.andThen_assoc {α β γ : Type} (r : Res α) (f : α → St → Res β)
    (g : β → St → Res γ) :
    (r.andThen f).andThen g = r.andThen (fun a s => (f a s).andThen g) := by
  cases r <;> rfl

theorem main_short (gen : Bool) (tail : List Str) (h : tail.length < 3) (env : Env) (s : St) :
    main gen tail env s = .stop .invalidArgs { s with trace := s.trace ++ [.usage] } := by
  unfold main
  simp only [h, if_true, M.bind_run, usage_run, halt_run, Res.andThen_ok, Res.andThen_stop]

theorem main_eq_front_back (gen : Bool) (tail : List Str) (h : ¬ tail.length < 3) (env : Env)
    (s : St) :
    main gen tail env s =
      (front gen (tail.getD 0 []) env s).andThen
        (fun pk s' => back pk (tail.getD 1 []) (tail.getD 2 []) env s') := by
  unfold main front back
  simp only [h, if_false, M.bind_run, M.pure_run, M.ite_run, Res.andThen_ok, Res.andThen_ite,
    Res.andThen_assoc]

/-- What the first half does: it only makes setup calls, starting with the
key, and can only stop at a setup call site. -/
theorem front_spec (gen : Bool) (k : Str) (env : Env) (s : St) :
    ∃ evs, (front gen k env s).state.trace = s.trace ++ evs ∧
      (∀ e ∈ evs, e.isSetup = true) ∧
      (evs.head? = some .generateKeyPair ∨ evs.head? = some (.openKey k)) ∧
      (∀ why s₁, front gen k env s = .stop why s₁ → why.isSetup = true) := by
  generalize hr : front gen k env s = r
  simp only [front, M.bind_run, M.ite_run, M.pure_run, generateKeyPair_run, osCreate_run,
    osOpen_run, writeKey_run, readPrivateKey_run, tempDir_run, crabfsNew_run,
    publishPublicKey_run, openHandle_run, fileRead_run, fileWrite_run, Res.andThen_ok,
    Res.andThen_stop, Res.andThen_ite, List.append_assoc, List.cons_append,
    List.nil_append] at hr
  split_ifs at hr <;> subst hr <;>
    exact ⟨_, rfl, by simp [Event.isSetup], by simp, by simp [Stop.isSetup]⟩

/-! ## Theorems on the copy driver -/

theorem precededBy_nil (Q : List Event → Event → Prop) : PrecededBy Q [] := by
  intro pre e post h
  exact absurd h (by simp)

theorem precededBy_cons (Q : List Event → Event → Prop) (a : Event) (l : List Event)
    (h₁ : Q [] a) (h₂ : PrecededBy (fun pre e => Q (a :: pre) e) l) :
    PrecededBy Q (a :: l) := by
  intro pre e post h
  cases pre with
  | nil =>
    simp only [List.nil_append, List.cons.injEq] at h
    rw [← h.1]
    exact h₁
  | cons x pre' =>
    simp only [List.cons_append, List.cons.injEq] at h
    rw [← h.1]
    exact h₂ pre' e post h.2

theorem precededBy_cons_iff (Q : List Event → Event → Prop) (a : Event) (l : List Event) :
    PrecededBy Q (a :: l) ↔ Q [] a ∧ PrecededBy (fun pre e => Q (a :: pre) e) l := by
  constructor
  · intro h
    exact ⟨h [] a l rfl, fun pre e post hl => h (a :: pre) e post (by rw [hl]; rfl)⟩
  · rintro ⟨h₁, h₂⟩
    exact precededBy_cons Q a l h₁ h₂

theorem precededBy_nil_iff (Q : List Event → Event → Prop) : PrecededBy Q [] ↔ True :=
  ⟨fun _ => trivial, fun _ => precededBy_nil Q⟩

theorem precededBy_append (Q : List Event → Event → Prop) (T B : List Event)
    (hT : ∀ pre e, e ∈ T → Q pre e) (hB : PrecededBy (fun pre e => Q (T ++ pre) e) B) :
    PrecededBy Q (T ++ B) := by
  induction T generalizing Q with
  | nil => simpa using hB
  | cons a T ih =>
    refine precededBy_cons Q a (T ++ B) (hT [] a (by simp)) ?_
    refine ih _ (fun pre e he => hT (a :: pre) e (by simp [he])) ?_
    simpa using hB

/-- The run of `main` with at least three arguments, through its two halves. -/
theorem runMain_eq (env : Env) (gen : Bool) (tail : List Str) (w : World)
    (h : ¬ tail.length < 3) :
    runMain env gen tail w =
      ((front gen (tail.getD 0 []) env (St.init w)).andThen
        (fun pk s' => back pk (tail.getD 1 []) (tail.getD 2 []) env s')).toRun := by
  unfold runMain
  rw [main_eq_front_back gen tail h]

theorem runMain_short (env : Env) (gen : Bool) (tail : List Str) (w : World)
    (h : tail.length < 3) :
    runMain env gen tail w = ⟨[.usage], w, .stopped .invalidArgs⟩ := by
  unfold runMain
  rw [main_short gen tail h]
  rfl

set_option maxHeartbeats 4000000 in
/-- C6: in every run whose destination starts with `crabfs://`, each `Put` in
the trace comes after an `io.Copy` into the temporary file that copied the
whole source stream without error, and the data `Put` reads through its
reader is that stream, the content of the temporary file from its first
byte; and a run that stops at the opening of the source, at `Get` or at the
copy issues no `Put`. -/
theorem put_only_after_full_copy (env : Env) (gen : Bool) (tail : List Str) (w : World)
    (hd : hasCrabfsPrefix (tail.getD 2 []) = true) :
    (∀ pre post pk b f D t,
        (runMain env gen tail w).trace = pre ++ Event.put pk b f D t :: post →
          Event.copy .temp D D.length true ∈ pre ∧
            (runMain env gen tail w).world.temp = some D) ∧
      ((runMain env gen tail w).outcome = .stopped .openSource ∨
          (runMain env gen tail w).outcome = .stopped .get ∨
          (runMain env gen tail w).outcome = .stopped .copy →
        ∀ pk b f D t, Event.put pk b f D t ∉ (runMain env gen tail w).trace) := by
  by_cases h3 : tail.length < 3
  · rw [runMain_short env gen tail w h3]
    refine ⟨?_, ?_⟩
    · intro pre post pk b f D t h
      have h' : [Event.usage] = pre ++ Event.put pk b f D t :: post := h
      have : Event.put pk b f D t ∈ [Event.usage] := by rw [h']; simp
      simp at this
    · intro _ pk b f D t h
      simp at h
  · rw [runMain_eq env gen tail w h3]
    revert hd
    generalize tail.getD 0 [] = key
    generalize tail.getD 1 [] = src
    generalize tail.getD 2 [] = dst
    intro hd
    obtain ⟨evs, htr, hsetup, _, hstop⟩ := front_spec gen key env (St.init w)
    cases hf : front gen key env (St.init w) with
    | stop why s₁ =>
      rw [hf] at htr
      simp only [Res.state, St.init, List.nil_append] at htr
      simp only [Res.andThen_stop, Res.toRun_stop, htr]
      have hw := hstop why s₁ hf
      refine ⟨?_, ?_⟩
      · intro pre post pk b f D t h
        have h' : evs = pre ++ Event.put pk b f D t :: post := h
        have hm : Event.put pk b f D t ∈ evs := by rw [h']; simp
        have := hsetup _ hm
        simp [Event.isSetup] at this
      · intro _ pk b f D t hm
        have := hsetup _ hm
        simp [Event.isSetup] at this
    | ok pk₁ s₁ =>
      rw [hf] at htr
      simp only [Res.state, St.init, List.nil_append] at htr
      simp only [Res.andThen_ok]
      by_cases hs : hasCrabfsPrefix src = true
      all_goals
        generalize hr : (back pk₁ src dst env s₁).toRun = r
        simp [back, M.bind_run, M.ite_run, M.pure_run, emit_run, halt_run, osCreate_run,
          osOpen_run, fsGet_run, tempFile_run, ioCopy_run, openTemp_run, fsPut_run, openHandle_run,
          fileRead_run, fileWrite_run, readAll_file_run, readAll_fetcher_run,
          Res.andThen_ok, Res.andThen_stop, Res.andThen_ite, Res.toRun_ite, Res.toRun_ok,
          Res.toRun_stop, hd, hs, htr, World.content, World.setContent, writeAt] at hr
        have hT : ∀ (pre : List Event) (e : Event), e ∈ evs →
            ∀ pk b f D t, e = Event.put pk b f D t →
              Event.copy .temp D D.length true ∈ pre ∧ r.world.temp = some D := by
          intro pre e he pk b f D t h
          subst h
          have := hsetup _ he
          simp [Event.isSetup] at this
        have hnoput : ∀ pk b f D t, Event.put pk b f D t ∉ evs := by
          intro pk b f D t hm
          have := hsetup _ hm
          simp [Event.isSetup] at this
        have key : PrecededBy (fun pre e => ∀ pk b f D t, e = Event.put pk b f D t →
              Event.copy .temp D D.length true ∈ pre ∧ r.world.temp = some D) r.trace ∧
            (r.outcome = .stopped .openSource ∨ r.outcome = .stopped .get ∨
                r.outcome = .stopped .copy →
              ∀ pk b f D t, Event.put pk b f D t ∉ r.trace) := by
          split_ifs at hr <;> subst hr <;> refine ⟨precededBy_append _ _ _ hT ?_, ?_⟩ <;>
            simp [precededBy_cons_iff, precededBy_nil_iff, World.content, World.setContent,
              writeAt, hnoput]
          all_goals
            intros
            subst_vars
            simp
        exact ⟨fun pre post pk b f D t h => key.1 pre _ post h pk b f D t rfl, key.2⟩

/-- Witness for C6: the local file `in` is pushed to `crabfs://b/f.txt`. -/
theorem put_only_after_full_copy_witness :
    Event.copy .temp [104, 105] 2 true ∈
        [Event.openKey ['k'], Event.readPrivateKey, Event.tempDir, Event.newStore,
          Event.publishPublicKey ⟨7⟩, Event.openSource ['i', 'n'], Event.tempFile,
          Event.copy .temp [104, 105] 2 true, Event.printCopied 2, Event.openTemp] ∧
      (runMain (Env.good ⟨7⟩ 100) false [['k'], ['i', 'n'], "crabfs://b/f.txt".toList]
        World.sample).world.temp = some [104, 105] :=
  (put_only_after_full_copy (Env.good ⟨7⟩ 100) false
    [['k'], ['i', 'n'], "crabfs://b/f.txt".toList] World.sample (by decide)).1
    [Event.openKey ['k'], Event.readPrivateKey, Event.tempDir, Event.newStore,
      Event.publishPublicKey ⟨7⟩, Event.openSource ['i', 'n'], Event.tempFile,
      Event.copy .temp [104, 105] 2 true, Event.printCopied 2, Event.openTemp]
    [Event.printPushed, Event.awaitSignal] ⟨7⟩ ['b'] "f.txt".toList [104, 105] 100 (by decide)

set_option maxHeartbeats 4000000 in
/-- C5, amended: in every run that reaches the copy step, `Get` is issued
exactly when the source starts with `crabfs://` and the source is opened as a
local file exactly when it does not; `Put` is issued exactly when the
destination starts with `crabfs://` and the run stops neither at the copy nor
at the re-opening of the temporary file; and when the destination does not
start with `crabfs://` it is created as a local file, the copy writes to it
and no `Put` is issued. -/
theorem direction_follows_scheme (env : Env) (gen : Bool) (tail : List Str) (w : World)
    (hreach : ∃ dst src n ok, Event.copy dst src n ok ∈ (runMain env gen tail w).trace) :
    ((∃ pk b f, Event.get pk b f ∈ (runMain env gen tail w).trace) ↔
        hasCrabfsPrefix (tail.getD 1 []) = true) ∧
      (Event.openSource (tail.getD 1 []) ∈ (runMain env gen tail w).trace ↔
        hasCrabfsPrefix (tail.getD 1 []) = false) ∧
      ((∃ pk b f D t, Event.put pk b f D t ∈ (runMain env gen tail w).trace) ↔
        (hasCrabfsPrefix (tail.getD 2 []) = true ∧
          (runMain env gen tail w).outcome ≠ .stopped .copy ∧
          (runMain env gen tail w).outcome ≠ .stopped .openTemp)) ∧
      (hasCrabfsPrefix (tail.getD 2 []) = false →
        Event.createDest (tail.getD 2 []) ∈ (runMain env gen tail w).trace ∧
          ∀ dst src n ok, Event.copy dst src n ok ∈ (runMain env gen tail w).trace →
            dst = .named (tail.getD 2 [])) := by
  revert hreach
  by_cases h3 : tail.length < 3
  · rw [runMain_short env gen tail w h3]
    simp
  · rw [runMain_eq env gen tail w h3]
    generalize tail.getD 0 [] = key
    generalize tail.getD 1 [] = src
    generalize tail.getD 2 [] = dst
    obtain ⟨evs, htr, hsetup, _, hstop⟩ := front_spec gen key env (St.init w)
    have hnoput : ∀ pk b f D t, Event.put pk b f D t ∉ evs := by
      intro pk b f D t hm
      have := hsetup _ hm
      simp [Event.isSetup] at this
    have hnocopy : ∀ dst src n ok, Event.copy dst src n ok ∉ evs := by
      intro dst src n ok hm
      have := hsetup _ hm
      simp [Event.isSetup] at this
    have hnoget : ∀ pk b f, Event.get pk b f ∉ evs := by
      intro pk b f hm
      have := hsetup _ hm
      simp [Event.isSetup] at this
    have hnoopen : ∀ p, Event.openSource p ∉ evs := by
      intro p hm
      have := hsetup _ hm
      simp [Event.isSetup] at this
    have hnocreate : ∀ p, Event.createDest p ∉ evs := by
      intro p hm
      have := hsetup _ hm
      simp [Event.isSetup] at this
    cases hf : front gen key env (St.init w) with
    | stop why s₁ =>
      rw [hf] at htr
      simp only [Res.state, St.init, List.nil_append] at htr
      simp only [Res.andThen_stop, Res.toRun_stop, htr]
      simp [hnocopy]
    | ok pk₁ s₁ =>
      rw [hf] at htr
      simp only [Res.state, St.init, List.nil_append] at htr
      simp only [Res.andThen_ok]
      by_cases hs : hasCrabfsPrefix src = true <;> by_cases hd : hasCrabfsPrefix dst = true
      all_goals
        generalize hr : (back pk₁ src dst env s₁).toRun = r
        simp [back, M.bind_run, M.ite_run, M.pure_run, emit_run, halt_run, osCreate_run,
          osOpen_run, fsGet_run, tempFile_run, ioCopy_run, openTemp_run, fsPut_run, openHandle_run,
          fileRead_run, fileWrite_run, readAll_file_run, readAll_fetcher_run,
          Res.andThen_ok, Res.andThen_stop, Res.andThen_ite, Res.toRun_ite, Res.toRun_ok,
          Res.toRun_stop, htr, hs, hd, World.content, World.setContent, writeAt] at hr
        split_ifs at hr <;> subst hr <;>
          simp [hnoput, hnocopy, hnoget, hnoopen, hnocreate, *]
        all_goals
          intros
          assumption

/-- C5 fails as stated: both runs reach the copy step with a destination that
starts with `crabfs://`, and neither issues a `Put`. In the first `io.Copy`
fails after one byte; in the second the copy is complete and the re-opening
of the temporary file fails. -/
theorem direction_follows_scheme_counterexample :
    hasCrabfsPrefix "crabfs://b/f.txt".toList = true ∧
      (runMain (Env.copyFails ⟨7⟩ 100) false [['k'], ['i', 'n'], "crabfs://b/f.txt".toList]
        World.sample).trace =
        [Event.openKey ['k'], Event.readPrivateKey, Event.tempDir, Event.newStore,
          Event.publishPublicKey ⟨7⟩, Event.openSource ['i', 'n'], Event.tempFile,
          Event.copy .temp [104, 105] 1 false] ∧
      (runMain (Env.copyFails ⟨7⟩ 100) false [['k'], ['i', 'n'], "crabfs://b/f.txt".toList]
        World.sample).outcome = .stopped .copy ∧
      (runMain (Env.reopenFailing ⟨7⟩ 100) false [['k'], ['i', 'n'], "crabfs://b/f.txt".toList]
        World.sample).trace =
        [Event.openKey ['k'], Event.readPrivateKey, Event.tempDir, Event.newStore,
          Event.publishPublicKey ⟨7⟩, Event.openSource ['i', 'n'], Event.tempFile,
          Event.copy .temp [104, 105] 2 true, Event.printCopied 2, Event.openTemp] ∧
      (runMain (Env.reopenFailing ⟨7⟩ 100) false [['k'], ['i', 'n'], "crabfs://b/f.txt".toList]
        World.sample).outcome = .stopped .openTemp := by
  decide

/-- Witness for the amended C5: a run that pushes the local file `in`. -/
theorem direction_follows_scheme_witness :
    (∃ pk b f D t, Event.put pk b f D t ∈
        (runMain (Env.good ⟨7⟩ 100) false [['k'], ['i', 'n'], "crabfs://b/f.txt".toList]
          World.sample).trace) ↔
      (hasCrabfsPrefix ([['k'], ['i', 'n'], "crabfs://b/f.txt".toList].getD 2 []) = true ∧
        (runMain (Env.good ⟨7⟩ 100) false [['k'], ['i', 'n'], "crabfs://b/f.txt".toList]
          World.sample).outcome ≠ .stopped .copy ∧
        (runMain (Env.good ⟨7⟩ 100) false [['k'], ['i', 'n'], "crabfs://b/f.txt".toList]
          World.sample).outcome ≠ .stopped .openTemp) :=
  (direction_follows_scheme (Env.good ⟨7⟩ 100) false [['k'], ['i', 'n'], "crabfs://b/f.txt".toList]
    World.sample ⟨.temp, [104, 105], 2, true, by decide⟩).2.2.1

/-- C10: with fewer than three positional arguments the run prints the usage
text and stops with `Invalid args`, having made no other call and left the
world as it was; with three or more, the first three are the key path, the
source and the destination, in this order, and the rest is ignored. -/
theorem main_argument_check (env : Env) (gen : Bool) (tail : List Str) (w : World) :
    (tail.length < 3 → runMain env gen tail w = ⟨[.usage], w, .stopped .invalidArgs⟩) ∧
      (∀ k s d rest, tail = k :: s :: d :: rest →
        runMain env gen tail w =
            ((front gen k env (St.init w)).andThen (fun pk s' => back pk s d env s')).toRun ∧
          runMain env gen tail w = runMain env gen [k, s, d] w) := by
  refine ⟨runMain_short env gen tail w, ?_⟩
  rintro k s d rest rfl
  have h1 : ¬ (k :: s :: d :: rest).length < 3 := by simp
  have h2 : ¬ [k, s, d].length < 3 := by simp
  rw [runMain_eq env gen _ w h1, runMain_eq env gen _ w h2]
  exact ⟨rfl, rfl⟩

/-- Witness for C10: two arguments only. -/
theorem main_argument_check_witness :
    runMain (Env.good ⟨7⟩ 100) false [['k'], ['i', 'n']] World.sample =
      ⟨[.usage], World.sample, .stopped .invalidArgs⟩ :=
  (main_argument_check (Env.good ⟨7⟩ 100) false [['k'], ['i', 'n']] World.sample).1 (by decide)

/-- C2 fails as stated: the source `crabfs://` has no bucket and parses to two
empty strings, yet the run opens and reads the key file, makes the temp
directory, opens the store, publishes the key and issues `Get` with the empty
bucket and file name. -/
theorem malformed_address_counterexample :
    hasCrabfsPrefix "crabfs://".toList = true ∧
      extractBucketAndFilename "crabfs://".toList = ([], []) ∧
      (runMain (Env.good ⟨7⟩ 100) false [['k'], "crabfs://".toList, ['o']]
        World.sample).trace =
        [Event.openKey ['k'], Event.readPrivateKey, Event.tempDir, Event.newStore,
          Event.publishPublicKey ⟨7⟩, Event.get ⟨7⟩ [] []] := by
  decide

set_option maxHeartbeats 4000000 in
/-- C2, amended: a malformed address is not rejected. With at least three
arguments the run starts with the key call; when the source starts with
`crabfs://` and parses to two empty strings, `Get` is issued with the empty
bucket and file name unless the run stops at a setup call (key, temp
directory, store, key publication); when the destination starts with
`crabfs://` and parses to two empty strings, every run that gets as far as
`Put` issues it with the empty bucket and file name. -/
theorem malformed_address_not_rejected (env : Env) (gen : Bool) (tail : List Str) (w : World)
    (h3 : 3 ≤ tail.length) :
    ((runMain env gen tail w).trace.head? = some .generateKeyPair ∨
        (runMain env gen tail w).trace.head? = some (.openKey (tail.getD 0 []))) ∧
      (hasCrabfsPrefix (tail.getD 1 []) = true →
        extractBucketAndFilename (tail.getD 1 []) = ([], []) →
        (∀ why, (runMain env gen tail w).outcome = .stopped why → why.isSetup = false) →
        ∃ pk, Event.get pk [] [] ∈ (runMain env gen tail w).trace) ∧
      (hasCrabfsPrefix (tail.getD 2 []) = true →
        extractBucketAndFilename (tail.getD 2 []) = ([], []) →
        ((runMain env gen tail w).outcome = .stopped .exit ∨
          (runMain env gen tail w).outcome = .stopped .put) →
        ∃ pk D t, Event.put pk [] [] D t ∈ (runMain env gen tail w).trace) := by
  have h3' : ¬ tail.length < 3 := by omega
  rw [runMain_eq env gen tail w h3']
  generalize tail.getD 0 [] = key
  generalize tail.getD 1 [] = src
  generalize tail.getD 2 [] = dst
  obtain ⟨evs, htr, hsetup, hhead, hstop⟩ := front_spec gen key env (St.init w)
  cases hf : front gen key env (St.init w) with
  | stop why s₁ =>
    rw [hf] at htr
    simp only [Res.state, St.init, List.nil_append] at htr
    simp only [Res.andThen_stop, Res.toRun_stop, htr]
    have hw := hstop why s₁ hf
    refine ⟨hhead, ?_, ?_⟩
    · intro _ _ h
      have := h why rfl
      rw [hw] at this
      exact absurd this (by simp)
    · intro _ _ h
      rcases h with h | h <;> cases h <;> simp [Stop.isSetup] at hw
  | ok pk₁ s₁ =>
    rw [hf] at htr
    simp only [Res.state, St.init, List.nil_append] at htr
    simp only [Res.andThen_ok]
    have hhead' : ∀ B : List Event, (evs ++ B).head? = some .generateKeyPair ∨
        (evs ++ B).head? = some (.openKey key) := by
      intro B
      cases evs with
      | nil => simp at hhead
      | cons e es => simpa using hhead
    by_cases hs : hasCrabfsPrefix src = true <;> by_cases hd : hasCrabfsPrefix dst = true
    all_goals
      generalize hr : (back pk₁ src dst env s₁).toRun = r
      simp [back, M.bind_run, M.ite_run, M.pure_run, emit_run, halt_run, osCreate_run,
        osOpen_run, fsGet_run, tempFile_run, ioCopy_run, openTemp_run, fsPut_run, openHandle_run,
        fileRead_run, fileWrite_run, readAll_file_run, readAll_fetcher_run,
        Res.andThen_ok, Res.andThen_stop, Res.andThen_ite, Res.toRun_ite, Res.toRun_ok,
        Res.toRun_stop, htr, hs, hd, World.content, World.setContent, writeAt] at hr
      split_ifs at hr <;> subst hr <;> refine ⟨hhead' _, ?_, ?_⟩ <;>
        simp [Stop.isSetup, *]
      all_goals
        intros
        first
          | (simp_all; done)
          | (simp_all; exact ⟨pk₁, _, _, Or.inr ⟨rfl, rfl, rfl⟩⟩)

/-- Witness for the amended C2: the run on the source `crabfs://`. -/
theorem malformed_address_not_rejected_witness :
    ∃ pk, Event.get pk [] [] ∈
      (runMain (Env.good ⟨7⟩ 100) false [['k'], "crabfs://".toList, ['o']] World.sample).trace :=
  (malformed_address_not_rejected (Env.good ⟨7⟩ 100) false [['k'], "crabfs://".toList, ['o']]
    World.sample (by decide)).2.1 (by decide) (by decide)
    (fun why h => by
      have h2 : (runMain (Env.good ⟨7⟩ 100) false [['k'], "crabfs://".toList, ['o']]
          World.sample).outcome = .stopped .get := by decide
      rw [h2] at h
      cases h
      rfl)

theorem Store.publish_lookup (st : Store) (k : PrivKey) (b f : Str) (data : Bytes) (time : Nat)
    (h : ∀ d t, st k b f = some (d, t) → t < time) :
    st.publish k b f data time k b f = some (data, time) := by
  unfold Store.publish
  cases hs : st k b f with
  | none => simp
  | some r =>
    obtain ⟨d, t⟩ := r
    have := h d t hs
    simp [this]

/-- The first half when the key file is read: the key it holds, the world untouched. -/
theorem front_load_ok (env : Env) (key : Str) (s : St) (kb : Bytes) (K : PrivKey)
    (hf : env.NoFault) (hk : s.world.files (env.resolve key) = some kb)
    (hr : env.readPrivateKey kb = some K) :
    ∃ s₁, front false key env s = .ok K s₁ ∧ s₁.world = s.world := by
  obtain ⟨ho, _, htd, hn, hp, _⟩ := hf
  generalize hres : front false key env s = r
  simp [front, M.bind_run, M.ite_run, M.pure_run, osOpen_run, readPrivateKey_run,
    tempDir_run, crabfsNew_run, publishPublicKey_run, openHandle_run, fileRead_run,
    Res.andThen_ok, Res.andThen_ite, ho, htd, hn, hp, hk, hr, World.content] at hres
  subst hres
  exact ⟨_, rfl, rfl⟩

/-- The first half when the key is generated: the new key, written to the key file. -/
theorem front_gen_ok (env : Env) (key : Str) (s : St) (K : PrivKey)
    (hf : env.NoFault) (hg : env.generateKeyPair = some K) :
    ∃ s₁, front true key env s = .ok K s₁ ∧
      s₁.world = s.world.setContent env (.named key) (env.marshal K) := by
  obtain ⟨_, hc, htd, hn, hp, _⟩ := hf
  generalize hres : front true key env s = r
  simp [front, M.bind_run, M.ite_run, M.pure_run, generateKeyPair_run, osCreate_run,
    writeKey_run, tempDir_run, crabfsNew_run, publishPublicKey_run, openHandle_run,
    fileWrite_run, Res.andThen_ok, Res.andThen_ite, hc, htd, hn, hp, hg] at hres
  subst hres
  refine ⟨_, rfl, ?_⟩
  simp [World.content, World.setContent, writeAt]
  funext q
  by_cases hq : q = env.resolve key <;> simp [hq]

/-- The second half on a push that meets no failure. -/
theorem back_push (env : Env) (s : St) (K : PrivKey) (S : Bytes) (inp dst : Str)
    (hf : env.NoFault) (hinp : hasCrabfsPrefix inp = false)
    (hS : s.world.files (env.resolve inp) = some S) (hdst : hasCrabfsPrefix dst = true) :
    (back K inp dst env s).toRun.outcome = .stopped .exit ∧
      (back K inp dst env s).toRun.world.store =
        s.world.store.publish K (extractBucketAndFilename dst).1
          (extractBucketAndFilename dst).2 S env.now ∧
      (back K inp dst env s).toRun.world.files = s.world.files := by
  obtain ⟨ho, hc, htd, hn, hp, hg, htf, hcf, hro, hpf⟩ := hf
  simp [back, M.bind_run, M.ite_run, M.pure_run, emit_run, halt_run, osCreate_run,
    osOpen_run, fsGet_run, tempFile_run, ioCopy_run, openTemp_run, fsPut_run, openHandle_run,
    fileRead_run, fileWrite_run, readAll_file_run, readAll_fetcher_run,
    Res.andThen_ok, Res.andThen_stop, Res.andThen_ite, Res.toRun_ite, Res.toRun_ok,
    Res.toRun_stop, ho, htf, hcf, hro, hpf, hinp, hdst, hS, World.content, World.setContent,
    writeAt]

/-- The second half on a fetch that meets no failure. -/
theorem back_fetch (env : Env) (s : St) (K : PrivKey) (S : Bytes) (t : Nat) (src out : Str)
    (hf : env.NoFault) (hsrc : hasCrabfsPrefix src = true) (hout : hasCrabfsPrefix out = false)
    (hS : s.world.store K (extractBucketAndFilename src).1 (extractBucketAndFilename src).2
      = some (S, t)) :
    (back K src out env s).toRun.outcome = .returned ∧
      (back K src out env s).toRun.world.files (env.resolve out) = some S := by
  obtain ⟨ho, hc, htd, hn, hp, hg, htf, hcf, hro, hpf⟩ := hf
  simp [back, M.bind_run, M.ite_run, M.pure_run, emit_run, halt_run, osCreate_run,
    osOpen_run, fsGet_run, tempFile_run, ioCopy_run, openTemp_run, fsPut_run, openHandle_run,
    fileRead_run, fileWrite_run, readAll_file_run, readAll_fetcher_run,
    Res.andThen_ok, Res.andThen_stop, Res.andThen_ite, Res.toRun_ite, Res.toRun_ok,
    Res.toRun_stop, hc, hg, hcf, hsrc, hout, hS, World.content, World.setContent, writeAt]

/-- C7 fails as stated: the store already holds, under key 7, bucket `b` and
file name `f.txt`, the bytes 9, 9 published at time 200. Copying the local
file `in`, which holds `hello world`, to `crabfs://b/f.txt` at time 100 runs
without error, and so does copying `crabfs://b/f.txt` to `out` afterwards,
but `out` holds 9, 9. -/
theorem copy_round_trip_counterexample :
    World.stale.files ['i', 'n'] = some helloWorld ∧
      (runMain (Env.good ⟨7⟩ 100) false [['k'], ['i', 'n'], "crabfs://b/f.txt".toList]
        World.stale).outcome = .stopped .exit ∧
      (runMain (Env.good ⟨7⟩ 300) false [['k'], "crabfs://b/f.txt".toList, ['o', 'u', 't']]
        (runMain (Env.good ⟨7⟩ 100) false [['k'], ['i', 'n'], "crabfs://b/f.txt".toList]
          World.stale).world).outcome = .returned ∧
      (runMain (Env.good ⟨7⟩ 300) false [['k'], "crabfs://b/f.txt".toList, ['o', 'u', 't']]
        (runMain (Env.good ⟨7⟩ 100) false [['k'], ['i', 'n'], "crabfs://b/f.txt".toList]
          World.stale).world).world.files ['o', 'u', 't'] = some [9, 9] := by
  decide

/-- C7, amended: copying a local file that holds `S` to `crabfs://b/f.txt`
with key `K` (generated by the run, or read from the key file), then copying
`crabfs://b/f.txt` to a local file with the same key, leaves a local file
whose bytes are exactly `S`, provided that no external call of either run
fails, that the store holds no record of that owner and name whose timestamp
is not earlier than the time of the first copy, and that a generated key is
not written over the source file. -/
theorem copy_round_trip (env₁ env₂ : Env) (w₁ w₂ : World) (gen : Bool) (K : PrivKey)
    (S kb₂ : Bytes) (key₁ key₂ inp out : Str)
    (hf₁ : env₁.NoFault) (hf₂ : env₂.NoFault)
    (hgen : gen = true →
      env₁.generateKeyPair = some K ∧ env₁.resolve key₁ ≠ env₁.resolve inp)
    (hload : gen = false →
      ∃ kb₁, w₁.files (env₁.resolve key₁) = some kb₁ ∧ env₁.readPrivateKey kb₁ = some K)
    (hk₂ : w₂.files (env₂.resolve key₂) = some kb₂) (hr₂ : env₂.readPrivateKey kb₂ = some K)
    (hinp : hasCrabfsPrefix inp = false) (hS : w₁.files (env₁.resolve inp) = some S)
    (hout : hasCrabfsPrefix out = false)
    (hnew : ∀ d t, w₁.store K ['b'] "f.txt".toList = some (d, t) → t < env₁.now)
    (hstore : w₂.store =
      (runMain env₁ gen [key₁, inp, "crabfs://b/f.txt".toList] w₁).world.store) :
    (runMain env₁ gen [key₁, inp, "crabfs://b/f.txt".toList] w₁).outcome = .stopped .exit ∧
      (runMain env₂ false [key₂, "crabfs://b/f.txt".toList, out] w₂).outcome = .returned ∧
      (runMain env₂ false [key₂, "crabfs://b/f.txt".toList, out] w₂).world.files
        (env₂.resolve out) = some S := by
  have hp : hasCrabfsPrefix "crabfs://b/f.txt".toList = true := by decide
  have he : extractBucketAndFilename "crabfs://b/f.txt".toList = (['b'], "f.txt".toList) := by
    decide
  have h3₁ : ¬ [key₁, inp, "crabfs://b/f.txt".toList].length < 3 := by simp
  have h3₂ : ¬ [key₂, "crabfs://b/f.txt".toList, out].length < 3 := by simp
  -- the first run: the key, then the push
  have hfront : ∃ s₁, front gen key₁ env₁ (St.init w₁) = .ok K s₁ ∧
      s₁.world.files (env₁.resolve inp) = some S ∧ s₁.world.store = w₁.store := by
    cases gen with
    | true =>
      obtain ⟨hg, hne⟩ := hgen rfl
      obtain ⟨s₁, h1, h2⟩ := front_gen_ok env₁ key₁ (St.init w₁) K hf₁ hg
      refine ⟨s₁, h1, ?_, ?_⟩
      · rw [h2]
        simp [World.setContent, St.init, hS, Ne.symm hne]
      · rw [h2]
        rfl
    | false =>
      obtain ⟨kb₁, hk₁, hr₁⟩ := hload rfl
      obtain ⟨s₁, h1, h2⟩ := front_load_ok env₁ key₁ (St.init w₁) kb₁ K hf₁ hk₁ hr₁
      refine ⟨s₁, h1, ?_, ?_⟩
      · rw [h2]
        exact hS
      · rw [h2]
        rfl
  obtain ⟨s₁, hfr₁, hS₁, hst₁⟩ := hfront
  obtain ⟨ho₁, hs₁, _⟩ := back_push env₁ s₁ K S inp _ hf₁ hinp hS₁ hp
  rw [runMain_eq env₁ gen _ w₁ h3₁] at hstore ⊢
  simp only [List.getD_cons_zero, List.getD_cons_succ] at hstore ⊢
  rw [hfr₁, Res.andThen_ok] at hstore ⊢
  rw [hs₁, he, hst₁] at hstore
  -- the second run: the key, then the fetch
  obtain ⟨s₂, hfr₂, hw₂⟩ := front_load_ok env₂ key₂ (St.init w₂) kb₂ K hf₂ hk₂ hr₂
  have hlook : s₂.world.store K (extractBucketAndFilename "crabfs://b/f.txt".toList).1
      (extractBucketAndFilename "crabfs://b/f.txt".toList).2 = some (S, env₁.now) := by
    rw [he, hw₂]
    show w₂.store K ['b'] "f.txt".toList = _
    rw [hstore]
    exact Store.publish_lookup w₁.store K _ _ S env₁.now hnew
  rw [runMain_eq env₂ false _ w₂ h3₂]
  simp only [List.getD_cons_zero, List.getD_cons_succ]
  rw [hfr₂, Res.andThen_ok]
  exact ⟨ho₁, back_fetch env₂ s₂ K S env₁.now _ out hf₂ hp hout hlook⟩

theorem Env.good_noFault (k : PrivKey) (now : Nat) : (Env.good k now).NoFault :=
  ⟨fun _ => rfl, fun _ => rfl, rfl, rfl, rfl, rfl, rfl, rfl, rfl, rfl⟩

/-- Witness for the amended C7, the scenario of the specification: a key is
generated, `hello world` is put under bucket `b`, file name `f.txt` at time
100 and fetched back at time 200. -/
theorem copy_round_trip_witness :
    (runMain (Env.good ⟨7⟩ 200) false [['k'], "crabfs://b/f.txt".toList, ['o', 'u', 't']]
        (runMain (Env.good ⟨7⟩ 100) true [['k'], ['i', 'n'], "crabfs://b/f.txt".toList]
          World.hello).world).world.files
      ['o', 'u', 't'] = some helloWorld :=
  (copy_round_trip (Env.good ⟨7⟩ 100) (Env.good ⟨7⟩ 200) World.hello
    (runMain (Env.good ⟨7⟩ 100) true [['k'], ['i', 'n'], "crabfs://b/f.txt".toList]
      World.hello).world
    true ⟨7⟩ helloWorld [1] ['k'] ['k'] ['i', 'n'] ['o', 'u', 't']
    (Env.good_noFault ⟨7⟩ 100) (Env.good_noFault ⟨7⟩ 200)
    (fun _ => ⟨rfl, by decide⟩) (fun h => absurd h (by decide))
    (by decide) rfl (by decide) (by decide) (by decide)
    (fun d t h => by simp [World.hello] at h) rfl).2.2

end CrabfsCp
